import Mathlib

/-!
Verification of the `authorized_keys` OpenSSH key-line parser.

This file shallowly embeds the hand-rolled character-scanning parser of
`src/openssh/v2/parse.rs` into Lean.  Rust `&[char]` slices become
`List Char`, `Iterator::position` becomes the `position` function below,
and `Result<(T, &[char]), ParseError>` becomes
`Except ParseError (T × List Char)`.

The source's `ParseError::Unmatched(String)` carries one of four distinct
format-string messages; these are represented by the four constructors of
`UnmatchedMsg`, each carrying the arguments that the source interpolates
into the message.  Likewise the `String` errors of
`KeyAuthorization::parse` become the two-constructor `LineError`, and the
file-level error message (line index plus cause) becomes `FileError`.
-/

/-- ASCII whitespace per Rust `char::is_ascii_whitespace`:
space, tab, line feed, form feed, carriage return. -/
def isAsciiWhitespace (c : Char) : Bool :=
  c == ' ' || c == '\t' || c == '\n' || c == '\x0C' || c == '\r'

/-- The base64 alphabet test used by `parse_base64`
(`is_ascii_alphanumeric() || '/' || '+'`). -/
def isBase64Char (c : Char) : Bool :=
  c.isAlphanum || c == '/' || c == '+'

/-- The dashed-identifier character test used by `parse_option_name`
(`is_ascii_alphanumeric() || '-'`). -/
def isNameChar (c : Char) : Bool :=
  c.isAlphanum || c == '-'

/-- Rust `u8::to_ascii_lowercase`, applied characterwise by
`str::to_ascii_lowercase`. -/
def toAsciiLower (c : Char) : Char :=
  if 'A' ≤ c ∧ c ≤ 'Z' then Char.ofNat (c.toNat + 32) else c

/-- Rust `Iterator::position`: index of the first element satisfying `p`. -/
def position (p : Char → Bool) : List Char → Option Nat
  | [] => none
  | c :: cs => if p c then some 0 else (position p cs).map (· + 1)

/-- The closed key-type enumeration of `models.rs`. -/
inductive KeyType
  | EcdsaSha2Nistp256
  | EcdsaSha2Nistp384
  | EcdsaSha2Nistp521
  | SshEd25519
  | SshDss
  | SshRsa
deriving DecidableEq, Repr

/-- Modelled from the spec: the key-type name constant of the `constants`
module (module not present under `src/`); value per spec section 6. -/
def ECDSA_SHA2_NISTP256 : List Char :=
  ['e','c','d','s','a','-','s','h','a','2','-','n','i','s','t','p','2','5','6']

/-- Modelled from the spec: key-type name constant, spec section 6. -/
def ECDSA_SHA2_NISTP384 : List Char :=
  ['e','c','d','s','a','-','s','h','a','2','-','n','i','s','t','p','3','8','4']

/-- Modelled from the spec: key-type name constant, spec section 6. -/
def ECDSA_SHA2_NISTP521 : List Char :=
  ['e','c','d','s','a','-','s','h','a','2','-','n','i','s','t','p','5','2','1']

/-- Modelled from the spec: key-type name constant, spec section 6. -/
def SSH_ED25519 : List Char := ['s','s','h','-','e','d','2','5','5','1','9']

/-- Modelled from the spec: key-type name constant, spec section 6. -/
def SSH_DSS : List Char := ['s','s','h','-','d','s','s']

/-- Modelled from the spec: key-type name constant, spec section 6. -/
def SSH_RSA : List Char := ['s','s','h','-','r','s','a']

/-- The canonical (lower-case) token of each key type. -/
def ktName : KeyType → List Char
  | .EcdsaSha2Nistp256 => ECDSA_SHA2_NISTP256
  | .EcdsaSha2Nistp384 => ECDSA_SHA2_NISTP384
  | .EcdsaSha2Nistp521 => ECDSA_SHA2_NISTP521
  | .SshEd25519 => SSH_ED25519
  | .SshDss => SSH_DSS
  | .SshRsa => SSH_RSA

/-- `impl FromStr for KeyType`: lower-case the token and match it against
the six known name constants. -/
def KeyType.fromChars (s : List Char) : Option KeyType :=
  let l := s.map toAsciiLower
  if l = ECDSA_SHA2_NISTP256 then some .EcdsaSha2Nistp256
  else if l = ECDSA_SHA2_NISTP384 then some .EcdsaSha2Nistp384
  else if l = ECDSA_SHA2_NISTP521 then some .EcdsaSha2Nistp521
  else if l = SSH_ED25519 then some .SshEd25519
  else if l = SSH_DSS then some .SshDss
  else if l = SSH_RSA then some .SshRsa
  else none

/-- `PublicKey` of `models.rs` (modelled from the spec, section 3). -/
structure PublicKey where
  key_type : KeyType
  encoded_key : List Char
deriving DecidableEq, Repr

/-- `KeyOption = (String, Option<String>)` of `models.rs`. -/
abbrev KeyOption := List Char × Option (List Char)

/-- `KeyOptions = Vec<KeyOption>` of `models.rs`. -/
abbrev KeyOptions := List KeyOption

/-- `KeyAuthorization` of `models.rs` (modelled from the spec, section 3). -/
structure KeyAuthorization where
  options : KeyOptions
  key : PublicKey
  comments : List Char
deriving DecidableEq, Repr

/-- `KeysFileLine` of `models.rs` (modelled from the spec, section 3). -/
inductive KeysFileLine
  | Comment (text : List Char)
  | Key (auth : KeyAuthorization)
deriving DecidableEq, Repr

/-- `KeysFile` of `models.rs` (modelled from the spec, section 3). -/
structure KeysFile where
  lines : List KeysFileLine
deriving DecidableEq, Repr

/-- The distinct messages interpolated into `ParseError::Unmatched(String)`
by the four `format!`-sites of `parse.rs`, with their arguments. -/
inductive UnmatchedMsg
  | unknownKeyType (token : List Char)
  | trailingCharacter (c : Char)
  | invalidBase64Length
  | optionValueStart
deriving DecidableEq, Repr

/-- `enum ParseError { Unmatched(String), Incomplete }` of `parse.rs`. -/
inductive ParseError
  | Unmatched (msg : UnmatchedMsg)
  | Incomplete
deriving DecidableEq, Repr

/-- `type ParseResult<'a, T> = Result<(T, &'a [char]), ParseError>`. -/
abbrev ParseResult (T : Type) := Except ParseError (T × List Char)

/-- The two distinct `String` errors of `KeyAuthorization::parse`. -/
inductive LineError
  | CouldNotFindKeyAfterOptions
  | CouldNotFindOptionsOrKey
deriving DecidableEq, Repr

/-- The file-level error of `KeysFile::from_str`: zero-based line index
plus the underlying line error. -/
structure FileError where
  line : Nat
  cause : LineError
deriving DecidableEq, Repr

/-- `parse_key_type`: split at the first literal space; the token before it
must lower-case to one of the six known key-type names. -/
def parse_key_type (input : List Char) : ParseResult KeyType :=
  match position (fun c => c == ' ') input with
  | some index =>
    let remainder := input.drop index
    let type_str := input.take index
    match KeyType.fromChars type_str with
    | some t => .ok (t, remainder)
    | none => .error (.Unmatched (.unknownKeyType type_str))
  | none => .error .Incomplete

/-- The token-end computation of `parse_base64`: the index of the first
character outside the base64 alphabet, bumped by the source's two-pass
loop `for _ in 0..2 ... if input.get(index + 1) == Some('=') ... index += 1`
(unrolled here: the second pass re-tests the same position when the first
did not fire), or the whole input length when every character is in the
alphabet. -/
def base64StrEnd (input : List Char) : Nat :=
  match position (fun c => !(c.isAlphanum || c == '/' || c == '+')) input with
  | some index =>
    if input[index + 1]? = some '=' then
      if input[index + 2]? = some '=' then index + 2 else index + 1
    else index
  | none => input.length

/-- `parse_base64`: take the token up to `base64StrEnd` (the maximal
base64-alphabet run, bumped by the source's two-pass equals-sign loop);
the following character, if any, must be ASCII whitespace, and the token
length must be divisible by 4. -/
def parse_base64 (input : List Char) : ParseResult (List Char) :=
  match (input.drop (base64StrEnd input)).head? with
  | some c =>
    if !(isAsciiWhitespace c) then .error (.Unmatched (.trailingCharacter c))
    else
      if (input.take (base64StrEnd input)).length % 4 = 0 then
        .ok (input.take (base64StrEnd input), input.drop (base64StrEnd input))
      else .error (.Unmatched .invalidBase64Length)
  | none =>
    if (input.take (base64StrEnd input)).length % 4 = 0 then
      .ok (input.take (base64StrEnd input), input.drop (base64StrEnd input))
    else .error (.Unmatched .invalidBase64Length)

/-- `parse_encoded_key` simply delegates to `parse_base64`. -/
def parse_encoded_key (input : List Char) : ParseResult (List Char) :=
  parse_base64 input

/-- `skip_whitespace`: drop up to the first non-whitespace character.
The source uses `position(..).unwrap_or(0)`, so an all-whitespace input is
returned unchanged. -/
def skip_whitespace (input : List Char) : List Char :=
  let skip_to := (position (fun c => !(isAsciiWhitespace c)) input).getD 0
  input.drop skip_to

/-- `skip_char`: drop one character of a non-empty input. -/
def skip_char (input : List Char) : List Char :=
  if input.isEmpty then input else input.drop 1

/-- `parse_public_key`: key-type token, then whitespace skip, then the
base64 key material. -/
def parse_public_key (input : List Char) : ParseResult PublicKey :=
  match parse_key_type input with
  | .error e => .error e
  | .ok (key_type, remainder) =>
    match parse_encoded_key (skip_whitespace remainder) with
    | .error e => .error e
    | .ok (encoded_key, remainder2) => .ok (⟨key_type, encoded_key⟩, remainder2)

/-- `parse_option_name`: the (possibly empty) maximal run of ASCII
alphanumerics and dashes.  Never fails. -/
def parse_option_name (input : List Char) : ParseResult (List Char) :=
  let name_end := (position (fun c => !(c.isAlphanum || c == '-')) input).getD input.length
  .ok (input.take name_end, input.drop name_end)

/-- The scan loop of `parse_option_value`: index of the first double quote
that is not preceded by an escaping backslash, tracking the
`last_char_slash` state exactly as the source does. -/
def find_unescaped_quote : List Char → Bool → Option Nat
  | [], _ => none
  | c :: cs, last_char_slash =>
    if c == '"' && !last_char_slash then some 0
    else (find_unescaped_quote cs (!last_char_slash && c == '\\')).map (· + 1)

/-- `parse_option_value`: a leading double quote, then everything up to the
first unescaped double quote (escapes left verbatim), consuming the
closing quote. -/
def parse_option_value (input : List Char) : ParseResult (List Char) :=
  if input.head? ≠ some '"' then .error (.Unmatched .optionValueStart)
  else
    match find_unescaped_quote (skip_char input) false with
    | some ind =>
      .ok ((skip_char input).take ind, skip_char ((skip_char input).drop ind))
    | none => .error .Incomplete

/-- The `while` loop of `parse_options`, written with a fuel parameter for
structural recursion.  Every continuing iteration consumes at least one
character, so any fuel exceeding the input length makes the zero-fuel
branch unreachable (`parse_options` passes `input.length + 1`).  As in the
source: a failed name parse breaks the loop (it never fails in fact), an
equals sign after the name demands a quoted value whose failure aborts the
whole parse, and the loop continues only past a comma. -/
def parse_options_go (fuel : Nat) (options : KeyOptions) (leftovers : List Char) :
    ParseResult KeyOptions :=
  match fuel with
  | 0 => .ok (options, leftovers)
  | fuel + 1 =>
    if leftovers.isEmpty then .ok (options, leftovers)
    else
      match parse_option_name leftovers with
      | .error _ => .ok (options, leftovers)
      | .ok (name, rem1) =>
        if rem1.head? = some '=' then
          match parse_option_value (rem1.drop 1) with
          | .error e => .error e
          | .ok (value, rem2) =>
            if rem2.head? = some ',' then
              parse_options_go fuel (options ++ [(name, some value)]) (skip_char rem2)
            else .ok (options ++ [(name, some value)], rem2)
        else
          if rem1.head? = some ',' then
            parse_options_go fuel (options ++ [(name, none)]) (skip_char rem1)
          else .ok (options ++ [(name, none)], rem1)

/-- `parse_options`: the comma-separated option list. -/
def parse_options (input : List Char) : ParseResult KeyOptions :=
  parse_options_go (input.length + 1) [] input

/-- `parse_comments`: everything up to (excluding) the first line feed or
the end of input; the source then shortens the capture by one when the
character two places before that boundary is a carriage return. -/
def parse_comments (input : List Char) : List Char × List Char :=
  let comment_end := (position (fun c => c == '\n') input).getD input.length
  let remainder := input.drop comment_end
  let comment_end2 :=
    if 2 ≤ comment_end ∧ input[comment_end - 2]? = some '\r' then comment_end - 1
    else comment_end
  (input.take comment_end2, remainder)

/-- `KeyAuthorization::parse`: try the optionless public-key grammar
first; on failure parse an option list and retry the public key after it;
capture the trailing comment on success. -/
def KeyAuthorization.parse (s : List Char) : Except LineError KeyAuthorization :=
  match parse_public_key s with
  | .ok (public_key, remainder) =>
    let c := parse_comments (skip_whitespace remainder)
    .ok ⟨[], public_key, c.1⟩
  | .error _ =>
    match parse_options s with
    | .ok (options, remainder) =>
      match parse_public_key (skip_whitespace remainder) with
      | .ok (public_key, remainder2) =>
        let c := parse_comments (skip_whitespace remainder2)
        .ok ⟨options, public_key, c.1⟩
      | .error _ => .error .CouldNotFindKeyAfterOptions
    | .error _ => .error .CouldNotFindOptionsOrKey

/-- The comment-line test of `KeysFile::from_str`:
`line.starts_with('#') || line.chars().all(|c| c.is_ascii_whitespace())`. -/
def isCommentLine (line : List Char) : Bool :=
  line.head? == some '#' || line.all isAsciiWhitespace

/-- The enumerated-lines loop of `KeysFile::from_str`: classify each line
as a comment or parse it as a key, failing fast with the zero-based index
of the first line whose key parse fails. -/
def parseLines : Nat → List (List Char) → Except FileError (List KeysFileLine)
  | _, [] => .ok []
  | i, line :: rest =>
    if isCommentLine line then
      match parseLines (i + 1) rest with
      | .ok ls => .ok (.Comment line :: ls)
      | .error e => .error e
    else
      match KeyAuthorization.parse line with
      | .ok key =>
        match parseLines (i + 1) rest with
        | .ok ls => .ok (.Key key :: ls)
        | .error e => .error e
      | .error e => .error ⟨i, e⟩

/-- Strip one trailing carriage return (used for pieces that preceded a
line feed). -/
def stripTrailingCR (l : List Char) : List Char :=
  if l.getLast? = some '\r' then l.dropLast else l

/-- Modelled from the Rust standard library semantics of `str::lines` used
by `KeysFile::from_str`: split at line feeds; a piece that preceded a line
feed has one trailing carriage return stripped; a final piece without a
line feed is kept verbatim, and an empty final piece is not produced.
`cur` accumulates the current line in reverse. -/
def rustLinesGo (cur : List Char) : List Char → List (List Char)
  | [] => if cur.isEmpty then [] else [cur.reverse]
  | c :: cs =>
    if c = '\n' then stripTrailingCR cur.reverse :: rustLinesGo [] cs
    else rustLinesGo (c :: cur) cs

/-- `str::lines` over the whole file text. -/
def rustLines (s : List Char) : List (List Char) :=
  rustLinesGo [] s

/-- `KeysFile::from_str`: split into lines and run the fail-fast line
loop. -/
def KeysFile.fromChars (s : List Char) : Except FileError KeysFile :=
  match parseLines 0 (rustLines s) with
  | .ok ls => .ok ⟨ls⟩
  | .error e => .error e

/-! ## Rendering a structured key line per the spec grammar -/

/-- Render one option: `name` or `name="value"`. -/
def renderOption : KeyOption → List Char
  | (name, none) => name
  | (name, some v) => name ++ '=' :: '"' :: v ++ ['"']

/-- Render an option list, comma-joined. -/
def renderOptions : KeyOptions → List Char
  | [] => []
  | [o] => renderOption o
  | o :: rest => renderOption o ++ ',' :: renderOptions rest

/-- Render a full key line per the spec grammar
`[ options WSP ] key-type WSP base64 [ WSP comment ]`, with single spaces
as the rendered whitespace. -/
def renderLine (opts : KeyOptions) (kt : KeyType) (b64 comment : List Char) :
    List Char :=
  (if opts = [] then [] else renderOptions opts ++ [' ']) ++
    ktName kt ++ ' ' :: b64 ++
    (if comment = [] then [] else ' ' :: comment)

/-- The escaped-text scan of spec section 4.4, starting in escape state
`esc`: no unescaped double quote occurs, and the scan ends unescaped
(so a directly appended quote terminates the value there). -/
def valueOk : List Char → Bool → Bool
  | [], esc => !esc
  | c :: cs, esc => !(c == '"' && !esc) && valueOk cs (!esc && c == '\\')

/-- The `KeyOption` name invariant of spec section 3. -/
def validName (n : List Char) : Prop :=
  n ≠ [] ∧ n.all isNameChar = true

/-- The `KeyOption` invariants of spec section 3. -/
def validOption (o : KeyOption) : Prop :=
  validName o.1 ∧ ∀ v, o.2 = some v → valueOk v false = true

/-! ## Lemmas about `position` -/

theorem position_cons_true {p : Char → Bool} {c : Char} {l : List Char}
    (h : p c = true) : position p (c :: l) = some 0 := by
  simp [position, h]

theorem position_cons_false {p : Char → Bool} {c : Char} {l : List Char}
    (h : p c = false) :
    position p (c :: l) = (position p l).map (· + 1) := by
  simp [position, h]

theorem position_get {p : Char → Bool} {l : List Char} {j : Nat}
    (h : position p l = some j) : ∃ c, l[j]? = some c ∧ p c = true := by
  induction l generalizing j with
  | nil => simp [position] at h
  | cons c cs ih =>
    by_cases hc : p c = true
    · rw [position_cons_true hc] at h
      cases h
      exact ⟨c, by simp, hc⟩
    · rw [position_cons_false (by simpa using hc)] at h
      rcases Option.map_eq_some'.mp h with ⟨j', hj', rfl⟩
      rcases ih hj' with ⟨d, hd, hpd⟩
      exact ⟨d, by simpa using hd, hpd⟩

theorem position_lt_length {p : Char → Bool} {l : List Char} {j : Nat}
    (h : position p l = some j) : j < l.length := by
  rcases position_get h with ⟨c, hc, -⟩
  exact (List.getElem?_eq_some.mp hc).1

theorem position_before {p : Char → Bool} {l : List Char} {j : Nat}
    (h : position p l = some j) :
    ∀ i, i < j → ∀ c, l[i]? = some c → p c = false := by
  induction l generalizing j with
  | nil => simp [position] at h
  | cons c cs ih =>
    by_cases hc : p c = true
    · rw [position_cons_true hc] at h
      cases h
      intro i hi
      exact absurd hi (Nat.not_lt_zero i)
    · rw [position_cons_false (by simpa using hc)] at h
      rcases Option.map_eq_some'.mp h with ⟨j', hj', rfl⟩
      intro i hi d hd
      cases i with
      | zero =>
        have hcd : c = d := by simpa using hd
        subst hcd
        simpa using hc
      | succ i =>
        exact ih hj' i (Nat.lt_of_succ_lt_succ hi) d (by simpa using hd)

theorem position_eq_none_iff {p : Char → Bool} {l : List Char} :
    position p l = none ↔ ∀ c ∈ l, p c = false := by
  induction l with
  | nil => simp [position]
  | cons c cs ih =>
    by_cases hc : p c = true
    · rw [position_cons_true hc]
      simp [hc]
    · rw [position_cons_false (by simpa using hc)]
      simp only [Option.map_eq_none', List.mem_cons]
      constructor
      · intro h d hd
        rcases hd with rfl | hd
        · simpa using hc
        · exact ih.mp h d hd
      · intro h
        exact ih.mpr fun d hd => h d (Or.inr hd)

theorem position_append_of_forall {p : Char → Bool} {l₁ : List Char}
    (h1 : ∀ c ∈ l₁, p c = false) {d : Char} (h2 : p d = true)
    (l₂ : List Char) : position p (l₁ ++ d :: l₂) = some l₁.length := by
  induction l₁ with
  | nil => simpa using position_cons_true h2
  | cons c cs ih =>
    rw [List.cons_append, position_cons_false (h1 c (by simp)),
      ih fun e he => h1 e (by simp [he])]
    rfl

theorem position_append_left {p : Char → Bool} {l : List Char} {j : Nat}
    (h : position p l = some j) (w : List Char) :
    position p (l ++ w) = some j := by
  induction l generalizing j with
  | nil => simp [position] at h
  | cons c cs ih =>
    by_cases hc : p c = true
    · rw [position_cons_true hc] at h
      cases h
      exact position_cons_true hc
    · rw [position_cons_false (by simpa using hc)] at h
      rcases Option.map_eq_some'.mp h with ⟨j', hj', rfl⟩
      rw [List.cons_append, position_cons_false (by simpa using hc), ih hj']
      rfl

theorem position_eq_some_of_mem {p : Char → Bool} {l : List Char} {c : Char}
    (hc : c ∈ l) (hp : p c = true) : ∃ j, position p l = some j := by
  cases h : position p l with
  | some j => exact ⟨j, rfl⟩
  | none => exact absurd (position_eq_none_iff.mp h c hc) (by simp [hp])

/-! ## Character-class lemmas -/

theorem ws_cases {c : Char} (h : isAsciiWhitespace c = true) :
    c = ' ' ∨ c = '\t' ∨ c = '\n' ∨ c = '\x0C' ∨ c = '\r' := by
  have h' := h
  simp only [isAsciiWhitespace, Bool.or_eq_true, beq_iff_eq] at h'
  tauto

theorem not_ws_of_base64 {c : Char} (h : isBase64Char c = true) :
    isAsciiWhitespace c = false := by
  cases hw : isAsciiWhitespace c with
  | false => rfl
  | true =>
    rcases ws_cases hw with rfl | rfl | rfl | rfl | rfl <;>
      exact absurd h (by decide)

theorem not_ws_of_nameChar {c : Char} (h : isNameChar c = true) :
    isAsciiWhitespace c = false := by
  cases hw : isAsciiWhitespace c with
  | false => rfl
  | true =>
    rcases ws_cases hw with rfl | rfl | rfl | rfl | rfl <;>
      exact absurd h (by decide)

theorem nameChar_ne_space {c : Char} (h : isNameChar c = true) :
    (c == ' ') = false := by
  cases he : c == ' ' with
  | false => rfl
  | true => exact absurd h (by rw [show c = ' ' from by simpa using he]; decide)

theorem b64_not_b64_pred {c : Char} (h : isBase64Char c = true) :
    (!(c.isAlphanum || c == '/' || c == '+')) = false := by
  simp only [isBase64Char] at h
  simp [h]

/-! ## Evaluation lemmas on rendered fragments -/

theorem fromChars_ktName (kt : KeyType) :
    KeyType.fromChars (ktName kt) = some kt := by
  cases kt <;> rfl

theorem ktName_no_space (kt : KeyType) :
    ∀ c ∈ ktName kt, (c == ' ') = false := by
  cases kt <;> decide

theorem parse_key_type_render (kt : KeyType) (rest : List Char) :
    parse_key_type (ktName kt ++ ' ' :: rest) = .ok (kt, ' ' :: rest) := by
  unfold parse_key_type
  rw [position_append_of_forall (ktName_no_space kt) (by decide) rest]
  simp only [List.take_left, List.drop_left, fromChars_ktName]

theorem skip_whitespace_nil : skip_whitespace [] = [] := rfl

theorem skip_whitespace_ws_cons {ws : List Char} {c : Char} {rest : List Char}
    (hws : ws.all isAsciiWhitespace = true) (hc : isAsciiWhitespace c = false) :
    skip_whitespace (ws ++ c :: rest) = c :: rest := by
  unfold skip_whitespace
  rw [position_append_of_forall
      (fun e he => by simp [List.all_eq_true.mp hws e he])
      (by simp [hc]) rest]
  simp only [Option.getD_some, List.drop_left]

theorem base64StrEnd_of_none {input : List Char}
    (h : position (fun c => !(c.isAlphanum || c == '/' || c == '+')) input = none) :
    base64StrEnd input = input.length := by
  unfold base64StrEnd
  rw [h]

theorem base64StrEnd_of_some {input : List Char} {p : Nat}
    (h : position (fun c => !(c.isAlphanum || c == '/' || c == '+')) input = some p)
    (h1 : input[p + 1]? ≠ some '=') :
    base64StrEnd input = p := by
  unfold base64StrEnd
  rw [h]
  show (if input[p + 1]? = some '=' then
      if input[p + 2]? = some '=' then p + 2 else p + 1
    else p) = p
  rw [if_neg h1]

theorem parse_base64_render {b64 tail : List Char} (hne : b64 ≠ [])
    (hall : b64.all isBase64Char = true) (hlen : b64.length % 4 = 0)
    (htail : tail = [] ∨ (tail.head? = some ' ' ∧ tail[1]? ≠ some '=')) :
    parse_base64 (b64 ++ tail) = .ok (b64, tail) := by
  have hend : base64StrEnd (b64 ++ tail) = b64.length := by
    rcases htail with rfl | ⟨h1, h2⟩
    · rw [List.append_nil]
      rw [base64StrEnd_of_none (position_eq_none_iff.mpr
        (fun c hc => b64_not_b64_pred (List.all_eq_true.mp hall c hc)))]
    · rcases tail with _ | ⟨t0, ts⟩
      · simp at h1
      · have ht0 : t0 = ' ' := by simpa using h1
        subst ht0
        refine base64StrEnd_of_some
          (position_append_of_forall
            (fun c hc => b64_not_b64_pred (List.all_eq_true.mp hall c hc))
            (by decide) ts) ?_
        rw [List.getElem?_append_right (by omega)]
        simpa using h2
  unfold parse_base64
  rw [hend, List.drop_left, List.take_left]
  rcases htail with rfl | ⟨h1, h2⟩
  · simp [hlen]
  · rcases tail with _ | ⟨t0, ts⟩
    · simp at h1
    · have ht0 : t0 = ' ' := by simpa using h1
      subst ht0
      simp [hlen, isAsciiWhitespace]

theorem parse_comments_nil : parse_comments [] = ([], []) := rfl

theorem parse_comments_no_lf {cs : List Char}
    (h1 : '\n' ∉ cs)
    (h2 : ¬(2 ≤ cs.length ∧ cs[cs.length - 2]? = some '\r')) :
    parse_comments cs = (cs, []) := by
  unfold parse_comments
  rw [position_eq_none_iff.mpr
      (fun e he => by
        cases heq : e == '\n' with
        | false => rfl
        | true => exact absurd (beq_iff_eq.mp heq ▸ he) h1)]
  simp only [Option.getD_none]
  rw [if_neg h2]
  simp

theorem parse_public_key_render {kt : KeyType} {ws b64 tail : List Char}
    (hws : ws.all isAsciiWhitespace = true) (hne : b64 ≠ [])
    (hall : b64.all isBase64Char = true) (hlen : b64.length % 4 = 0)
    (htail : tail = [] ∨ (tail.head? = some ' ' ∧ tail[1]? ≠ some '=')) :
    parse_public_key (ktName kt ++ ' ' :: (ws ++ (b64 ++ tail))) =
      .ok (⟨kt, b64⟩, tail) := by
  have hskip : skip_whitespace (' ' :: (ws ++ (b64 ++ tail))) = b64 ++ tail := by
    rcases b64 with _ | ⟨b0, bs⟩
    · exact absurd rfl hne
    · have hb0 : isAsciiWhitespace b0 = false :=
        not_ws_of_base64 (by
          simp only [List.all_cons, Bool.and_eq_true] at hall
          exact hall.1)
      have hshape : ' ' :: (ws ++ ((b0 :: bs) ++ tail)) =
          (' ' :: ws) ++ b0 :: (bs ++ tail) := by simp
      rw [hshape,
        skip_whitespace_ws_cons
          (by
            simp only [List.all_cons, Bool.and_eq_true]
            exact ⟨by decide, hws⟩)
          hb0]
      simp
  simp only [parse_public_key, parse_key_type_render, hskip, parse_encoded_key,
    parse_base64_render hne hall hlen htail]

theorem skip_whitespace_cons_not_ws {c : Char} {rest : List Char}
    (hc : isAsciiWhitespace c = false) :
    skip_whitespace (c :: rest) = c :: rest := by
  have h : (' ' :: []) ++ c :: rest = ' ' :: c :: rest := rfl
  have := @skip_whitespace_ws_cons [] c rest (by decide) hc
  simpa using this

/-- Parsing an optionless rendered line: key type, single space, unpadded
base64 token, optional single space and comment. -/
theorem parse_renderLine_nil {kt : KeyType} {b64 comment : List Char}
    (hne : b64 ≠ []) (hall : b64.all isBase64Char = true)
    (hlen : b64.length % 4 = 0)
    (hcnl : '\n' ∉ comment)
    (hchead : ∀ h0, comment.head? = some h0 →
      isAsciiWhitespace h0 = false ∧ h0 ≠ '=')
    (hccr : ¬(2 ≤ comment.length ∧ comment[comment.length - 2]? = some '\r')) :
    KeyAuthorization.parse (renderLine [] kt b64 comment) =
      .ok ⟨[], ⟨kt, b64⟩, comment⟩ := by
  have htail : (if comment = [] then ([] : List Char) else ' ' :: comment) = []
      ∨ ((if comment = [] then ([] : List Char) else ' ' :: comment).head? = some ' '
        ∧ (if comment = [] then ([] : List Char) else ' ' :: comment)[1]? ≠ some '=') := by
    rcases comment with _ | ⟨h0, cs⟩
    · exact Or.inl rfl
    · refine Or.inr ⟨rfl, ?_⟩
      have := (hchead h0 rfl).2
      simpa using this
  have hshape : renderLine [] kt b64 comment =
      ktName kt ++ ' ' :: ([] ++ (b64 ++
        (if comment = [] then [] else ' ' :: comment))) := by
    simp [renderLine]
  have hpk : parse_public_key (renderLine [] kt b64 comment) =
      .ok (⟨kt, b64⟩, if comment = [] then [] else ' ' :: comment) := by
    rw [hshape]
    exact parse_public_key_render (by simp) hne hall hlen htail
  unfold KeyAuthorization.parse
  rw [hpk]
  rcases comment with _ | ⟨h0, cs⟩
  · rfl
  · simp only [if_neg (by simp : ¬(h0 :: cs = []))]
    have hsk : skip_whitespace (' ' :: h0 :: cs) = h0 :: cs := by
      have hshape2 : (' ' :: []) ++ h0 :: cs = ' ' :: h0 :: cs := rfl
      rw [← hshape2]
      exact skip_whitespace_ws_cons (by decide) (hchead h0 rfl).1
    rw [hsk, parse_comments_no_lf hcnl hccr]

/-- C2 (code-bug evaluation): the base64 token `AA==` — a two-character
alphabet run with two padding characters, total length 4, at end of
input — is rejected by `parse_base64` with a trailing-character error
instead of being accepted. -/
theorem spec_C2_code_bug_eval :
    parse_base64 "AA==".toList =
      .error (.Unmatched (.trailingCharacter '=')) := rfl

/-- C3 (code-bug evaluation): a line ending in CR-LF parses successfully
but the returned comments field still ends with the carriage return. -/
theorem spec_C3_code_bug_eval :
    KeyAuthorization.parse "ssh-ed25519 AAAAtHUM hi\r\n".toList =
        .ok ⟨[], ⟨.SshEd25519, "AAAAtHUM".toList⟩, "hi\r".toList⟩ ∧
      ("hi\r".toList).getLast? = some '\r' := ⟨rfl, rfl⟩

/-- C4 (code-bug evaluation): a valid key line followed only by a trailing
space parses successfully but the returned comments field is the
whitespace itself — it is non-empty and begins with a space. -/
theorem spec_C4_code_bug_eval :
    KeyAuthorization.parse "ssh-ed25519 AAAAtHUM ".toList =
        .ok ⟨[], ⟨.SshEd25519, "AAAAtHUM".toList⟩, " ".toList⟩ ∧
      (" ".toList).head? = some ' ' ∧ isAsciiWhitespace ' ' = true :=
  ⟨rfl, rfl, rfl⟩

/-- C6: whenever the consumed base64 token (up to `base64StrEnd`) is
followed by ASCII whitespace or the end of input but its length is not
divisible by 4, `parse_base64` fails with the invalid-base64-length
error. -/
theorem spec_C6_invalid_base64_length (input : List Char)
    (hws : ((input.drop (base64StrEnd input)).head?.all isAsciiWhitespace) = true)
    (hlen : (input.take (base64StrEnd input)).length % 4 ≠ 0) :
    parse_base64 input = .error (.Unmatched .invalidBase64Length) := by
  unfold parse_base64
  cases h : (input.drop (base64StrEnd input)).head? with
  | none => rw [if_neg hlen]
  | some c0 =>
    rw [h] at hws
    simp only [Option.all_some] at hws
    simp only [hws, Bool.not_true, Bool.false_eq_true, if_false, if_neg hlen]

/-- C6 witness: the spec's own example token `AAAAtHU` at end of input. -/
theorem spec_C6_witness :
    ((("AAAAtHU".toList).drop (base64StrEnd "AAAAtHU".toList)).head?.all
        isAsciiWhitespace = true ∧
      (("AAAAtHU".toList).take (base64StrEnd "AAAAtHU".toList)).length % 4 ≠ 0) ∧
    parse_base64 "AAAAtHU".toList = .error (.Unmatched .invalidBase64Length) :=
  ⟨⟨by decide, by decide⟩,
    spec_C6_invalid_base64_length _ (by decide) (by decide)⟩

/-- C7 counterexample: a line consisting of a known key-type token, a
single tab, and a valid base64 token of length divisible by 4 is rejected
by `parse_line` — contrary to the claim, a tab alone is not an acceptable
separator, because `parse_key_type` splits only at a literal space. -/
theorem spec_C7_counterexample :
    "ssh-ed25519\tAAAAtHUM".toList =
        ktName .SshEd25519 ++ '\t' :: "AAAAtHUM".toList ∧
      ("AAAAtHUM".toList).all isBase64Char = true ∧
      ("AAAAtHUM".toList).length % 4 = 0 ∧
      KeyAuthorization.parse "ssh-ed25519\tAAAAtHUM".toList =
        .error .CouldNotFindKeyAfterOptions :=
  ⟨rfl, rfl, rfl, rfl⟩

/-- C7 amended: a key-type token followed by a space, then arbitrary
further ASCII whitespace (tabs included), then a valid unpadded base64
token of length divisible by 4, parses successfully; the separator's
first character must be a space. -/
theorem spec_C7_amended (kt : KeyType) (ws b64 : List Char)
    (hws : ws.all isAsciiWhitespace = true) (hne : b64 ≠ [])
    (hall : b64.all isBase64Char = true) (hlen : b64.length % 4 = 0) :
    KeyAuthorization.parse (ktName kt ++ ' ' :: (ws ++ b64)) =
      .ok ⟨[], ⟨kt, b64⟩, []⟩ := by
  have hpk : parse_public_key (ktName kt ++ ' ' :: (ws ++ b64)) =
      .ok (⟨kt, b64⟩, []) := by
    have h0 : ws ++ b64 = ws ++ (b64 ++ []) := by simp
    rw [h0]
    exact parse_public_key_render hws hne hall hlen (Or.inl rfl)
  unfold KeyAuthorization.parse
  rw [hpk]
  rfl

/-- C7 witness: `ssh-ed25519`, a space then a tab, then `AAAAtHUM`. -/
theorem spec_C7_witness :
    (("\t".toList).all isAsciiWhitespace = true ∧
      "AAAAtHUM".toList ≠ [] ∧
      ("AAAAtHUM".toList).all isBase64Char = true ∧
      ("AAAAtHUM".toList).length % 4 = 0) ∧
    KeyAuthorization.parse
        (ktName .SshEd25519 ++ ' ' :: ("\t".toList ++ "AAAAtHUM".toList)) =
      .ok ⟨[], ⟨.SshEd25519, "AAAAtHUM".toList⟩, []⟩ :=
  ⟨⟨by decide, by decide, by decide, by decide⟩,
    spec_C7_amended _ _ _ (by decide) (by decide) (by decide) (by decide)⟩

theorem mem_of_getElem_some {l : List Char} {a : Char} {n : Nat}
    (h : l[n]? = some a) : a ∈ l := by
  rcases List.getElem?_eq_some.mp h with ⟨hlt, rfl⟩
  exact List.getElem_mem hlt

theorem fromChars_eq_some_mem {l : List Char} {kt : KeyType}
    (h : KeyType.fromChars l = some kt) {c : Char} (hc : c ∈ l) :
    toAsciiLower c ∈ ktName kt := by
  have hm : toAsciiLower c ∈ l.map toAsciiLower := List.mem_map_of_mem _ hc
  simp only [KeyType.fromChars] at h
  split_ifs at h with h1 h2 h3 h4 h5 h6
  · cases h; rw [h1] at hm; simpa [ktName] using hm
  · cases h; rw [h2] at hm; simpa [ktName] using hm
  · cases h; rw [h3] at hm; simpa [ktName] using hm
  · cases h; rw [h4] at hm; simpa [ktName] using hm
  · cases h; rw [h5] at hm; simpa [ktName] using hm
  · cases h; rw [h6] at hm; simpa [ktName] using hm

theorem parse_key_type_eval {input : List Char} {j : Nat}
    (h : position (fun c => c == ' ') input = some j) :
    parse_key_type input =
      (match KeyType.fromChars (input.take j) with
        | some t => .ok (t, input.drop j)
        | none => .error (.Unmatched (.unknownKeyType (input.take j)))) := by
  unfold parse_key_type
  rw [h]

theorem key_type_err_of_bad_sep {n : List Char} {d : Char} {T : List Char}
    (hn : n.all isNameChar = true) (hd : (d == ' ') = false)
    (hbad : ∀ kt : KeyType, toAsciiLower d ∉ ktName kt) :
    ∃ e, parse_key_type (n ++ d :: T) = .error e := by
  cases hpos : position (fun c => c == ' ') (n ++ d :: T) with
  | none =>
    refine ⟨.Incomplete, ?_⟩
    unfold parse_key_type
    rw [hpos]
  | some j =>
    have hgetd : (n ++ d :: T)[n.length]? = some d := by
      rw [List.getElem?_append_right (Nat.le_refl _)]
      simp
    have hj : n.length + 1 ≤ j := by
      by_contra hlt
      push_neg at hlt
      rcases position_get hpos with ⟨e0, he0, hpe0⟩
      have he0' : e0 = ' ' := by simpa using hpe0
      subst he0'
      rcases Nat.lt_or_ge j n.length with hcase | hcase
      · rw [List.getElem?_append_left hcase] at he0
        have hmem : (' ' : Char) ∈ n := mem_of_getElem_some he0
        have := List.all_eq_true.mp hn _ hmem
        exact absurd (nameChar_ne_space this) (by simp)
      · have hj' : j = n.length := by omega
        subst hj'
        rw [hgetd] at he0
        have : d = ' ' := by simpa using he0
        subst this
        simp at hd
    have hdmem : d ∈ (n ++ d :: T).take j := by
      have h1 : ((n ++ d :: T).take j)[n.length]? = (n ++ d :: T)[n.length]? :=
        List.getElem?_take_of_lt (by omega)
      exact mem_of_getElem_some (h1.trans hgetd)
    rw [parse_key_type_eval hpos]
    cases hfc : KeyType.fromChars ((n ++ d :: T).take j) with
    | none => exact ⟨_, rfl⟩
    | some kt => exact absurd (fromChars_eq_some_mem hfc hdmem) (hbad kt)

theorem b64Char_ne_eq {c : Char} (h : isBase64Char c = true) : c ≠ '=' := by
  intro hc
  subst hc
  exact absurd h (by decide)

theorem parse_base64_dash (pre suf rest : List Char) {d0 : Char}
    (hpre : pre.all isBase64Char = true)
    (hsuf : suf.head? = some d0) (hd0 : isBase64Char d0 = true) :
    parse_base64 (pre ++ '-' :: (suf ++ rest)) =
      .error (.Unmatched (.trailingCharacter '-')) := by
  have hpos : position (fun c => !(c.isAlphanum || c == '/' || c == '+'))
      (pre ++ '-' :: (suf ++ rest)) = some pre.length :=
    position_append_of_forall
      (fun c hc => b64_not_b64_pred (List.all_eq_true.mp hpre c hc))
      (by decide) _
  rcases suf with _ | ⟨s0, ss⟩
  · simp at hsuf
  · have hs0 : s0 = d0 := by simpa using hsuf
    subst hs0
    have hget : (pre ++ '-' :: (s0 :: ss ++ rest))[pre.length + 1]? = some s0 := by
      rw [List.getElem?_append_right (by omega)]
      simp
    have hend : base64StrEnd (pre ++ '-' :: (s0 :: ss ++ rest)) = pre.length :=
      base64StrEnd_of_some hpos (by
        rw [hget]
        simpa using b64Char_ne_eq hd0)
    unfold parse_base64
    rw [hend, List.drop_left]
    rfl

theorem parse_base64_ktName_err (kt : KeyType) (rest : List Char) :
    parse_base64 (ktName kt ++ rest) =
      .error (.Unmatched (.trailingCharacter '-')) := by
  cases kt
  · exact parse_base64_dash ['e','c','d','s','a']
      ['s','h','a','2','-','n','i','s','t','p','2','5','6'] rest
      (by decide) rfl (by decide)
  · exact parse_base64_dash ['e','c','d','s','a']
      ['s','h','a','2','-','n','i','s','t','p','3','8','4'] rest
      (by decide) rfl (by decide)
  · exact parse_base64_dash ['e','c','d','s','a']
      ['s','h','a','2','-','n','i','s','t','p','5','2','1'] rest
      (by decide) rfl (by decide)
  · exact parse_base64_dash ['s','s','h'] ['e','d','2','5','5','1','9'] rest
      (by decide) rfl (by decide)
  · exact parse_base64_dash ['s','s','h'] ['d','s','s'] rest
      (by decide) rfl (by decide)
  · exact parse_base64_dash ['s','s','h'] ['r','s','a'] rest
      (by decide) rfl (by decide)

theorem parse_key_type_ok_of {input : List Char} {j : Nat} {kt : KeyType}
    (hpos : position (fun c => c == ' ') input = some j)
    (hfc : KeyType.fromChars (input.take j) = some kt) :
    parse_key_type input = .ok (kt, input.drop j) := by
  unfold parse_key_type
  rw [hpos]
  simp only [hfc]

theorem parse_key_type_err_of {input : List Char} {j : Nat}
    (hpos : position (fun c => c == ' ') input = some j)
    (hfc : KeyType.fromChars (input.take j) = none) :
    parse_key_type input =
      .error (.Unmatched (.unknownKeyType (input.take j))) := by
  unfold parse_key_type
  rw [hpos]
  simp only [hfc]

theorem parse_public_key_eval_err {input : List Char} {e : ParseError}
    (h : parse_key_type input = .error e) :
    parse_public_key input = .error e := by
  unfold parse_public_key
  rw [h]

theorem parse_public_key_eval_ok {input : List Char} {kt : KeyType}
    {rem : List Char} (h : parse_key_type input = .ok (kt, rem)) :
    parse_public_key input =
      (match parse_encoded_key (skip_whitespace rem) with
        | .error e => .error e
        | .ok (ek, r2) => .ok (⟨kt, ek⟩, r2)) := by
  unfold parse_public_key
  rw [h]

theorem ktName_cons (kt : KeyType) :
    ∃ k0 ktail, ktName kt = k0 :: ktail ∧ isAsciiWhitespace k0 = false := by
  cases kt <;> exact ⟨_, _, rfl, by decide⟩

theorem skip_whitespace_space {c : Char} {rest : List Char}
    (hc : isAsciiWhitespace c = false) :
    skip_whitespace (' ' :: c :: rest) = c :: rest :=
  @skip_whitespace_ws_cons [' '] c rest (by decide) hc

theorem optionless_fails_single {n : List Char} (hn : n.all isNameChar = true)
    (kt : KeyType) (X : List Char) :
    ∃ e, parse_public_key (n ++ ' ' :: (ktName kt ++ ' ' :: X)) = .error e := by
  have hpos : position (fun c => c == ' ') (n ++ ' ' :: (ktName kt ++ ' ' :: X)) =
      some n.length :=
    position_append_of_forall
      (fun c hc => nameChar_ne_space (List.all_eq_true.mp hn c hc)) (by decide) _
  cases hfc : KeyType.fromChars ((n ++ ' ' :: (ktName kt ++ ' ' :: X)).take n.length) with
  | none => exact ⟨_, parse_public_key_eval_err (parse_key_type_err_of hpos hfc)⟩
  | some kt2 =>
    have hkt : parse_key_type (n ++ ' ' :: (ktName kt ++ ' ' :: X)) =
        .ok (kt2, ' ' :: (ktName kt ++ ' ' :: X)) := by
      have h2 := parse_key_type_ok_of hpos hfc
      rwa [List.drop_left] at h2
    refine ⟨.Unmatched (.trailingCharacter '-'), ?_⟩
    rw [parse_public_key_eval_ok hkt]
    obtain ⟨k0, ktail, hkt0, hk0⟩ := ktName_cons kt
    have hskip : skip_whitespace (' ' :: (ktName kt ++ ' ' :: X)) =
        ktName kt ++ ' ' :: X := by
      rw [hkt0]
      exact skip_whitespace_space hk0
    rw [hskip]
    unfold parse_encoded_key
    rw [parse_base64_ktName_err]

theorem optionless_fails_badsep {n : List Char} {d : Char} {T : List Char}
    (hn : n.all isNameChar = true) (hd : (d == ' ') = false)
    (hbad : ∀ kt : KeyType, toAsciiLower d ∉ ktName kt) :
    ∃ e, parse_public_key (n ++ d :: T) = .error e := by
  obtain ⟨e, he⟩ := key_type_err_of_bad_sep hn hd hbad
  exact ⟨e, parse_public_key_eval_err he⟩

/-- On a rendered line that starts with a non-empty option list, the
optionless public-key attempt of the composite parser always fails. -/
theorem optionless_fails {n : List Char} {v : Option (List Char)}
    {rest : KeyOptions} (hn : n.all isNameChar = true) (kt : KeyType)
    (X : List Char) :
    ∃ e, parse_public_key
        (renderOptions ((n, v) :: rest) ++ ' ' :: (ktName kt ++ ' ' :: X)) =
      .error e := by
  rcases v with _ | v
  · rcases rest with _ | ⟨r, rs⟩
    · exact optionless_fails_single hn kt X
    · have hshape : renderOptions ((n, none) :: r :: rs) ++
          ' ' :: (ktName kt ++ ' ' :: X) =
          n ++ ',' :: (renderOptions (r :: rs) ++ ' ' :: (ktName kt ++ ' ' :: X)) := by
        simp [renderOptions, renderOption]
      rw [hshape]
      exact optionless_fails_badsep hn (by decide)
        (by intro kt0; cases kt0 <;> decide)
  · have hshape : ∃ T, renderOptions ((n, some v) :: rest) ++
        ' ' :: (ktName kt ++ ' ' :: X) = n ++ '=' :: T := by
      rcases rest with _ | ⟨r, rs⟩
      · refine ⟨('"' :: v ++ ['"']) ++ ' ' :: (ktName kt ++ ' ' :: X), ?_⟩
        simp [renderOptions, renderOption]
      · refine ⟨('"' :: v ++ ['"']) ++
          ',' :: (renderOptions (r :: rs) ++ ' ' :: (ktName kt ++ ' ' :: X)), ?_⟩
        simp [renderOptions, renderOption]
    obtain ⟨T, hT⟩ := hshape
    rw [hT]
    exact optionless_fails_badsep hn (by decide)
      (by intro kt0; cases kt0 <;> decide)


theorem nameChar_not_name_pred {c : Char} (h : isNameChar c = true) :
    (!(c.isAlphanum || c == '-')) = false := by
  simp only [isNameChar] at h
  simp [h]

theorem not_nameChar_name_pred {c : Char} (h : isNameChar c = false) :
    (!(c.isAlphanum || c == '-')) = true := by
  simp only [isNameChar] at h
  simp [h]

theorem parse_option_name_render {n : List Char} {d : Char} {t : List Char}
    (hn : n.all isNameChar = true) (hd : isNameChar d = false) :
    parse_option_name (n ++ d :: t) = .ok (n, d :: t) := by
  unfold parse_option_name
  rw [position_append_of_forall
      (fun c hc => nameChar_not_name_pred (List.all_eq_true.mp hn c hc))
      (not_nameChar_name_pred hd) t]
  simp only [Option.getD_some, List.take_left, List.drop_left]

theorem skip_char_cons (c : Char) (l : List Char) : skip_char (c :: l) = l := by
  simp [skip_char]

theorem fuq_render : ∀ (v : List Char) (esc : Bool) (after : List Char),
    valueOk v esc = true →
    find_unescaped_quote (v ++ '"' :: after) esc = some v.length := by
  intro v
  induction v with
  | nil =>
    intro esc after h
    have hesc : esc = false := by simpa [valueOk] using h
    subst hesc
    simp [find_unescaped_quote]
  | cons c cs ih =>
    intro esc after h
    simp only [valueOk, Bool.and_eq_true] at h
    obtain ⟨h1, h2⟩ := h
    have h1' : (c == '"' && !esc) = false := by
      cases hb : (c == '"' && !esc) with
      | false => rfl
      | true => rw [hb] at h1; exact absurd h1 (by simp)
    show find_unescaped_quote (c :: (cs ++ '"' :: after)) esc = _
    unfold find_unescaped_quote
    rw [if_neg (by simp [h1']), ih _ after h2]
    simp

theorem parse_option_value_render {v after : List Char}
    (hv : valueOk v false = true) :
    parse_option_value ('"' :: (v ++ '"' :: after)) = .ok (v, after) := by
  unfold parse_option_value
  rw [if_neg (by simp)]
  rw [show skip_char ('"' :: (v ++ '"' :: after)) = v ++ '"' :: after from
    skip_char_cons _ _]
  rw [fuq_render v false after hv]
  simp only [List.take_left, List.drop_left, skip_char_cons]

theorem renderOption_ne_nil {o : KeyOption} (ho : validOption o) :
    renderOption o ≠ [] := by
  rcases o with ⟨n, _ | v⟩
  · exact ho.1.1
  · rcases n with _ | ⟨a, as⟩ <;> simp [renderOption]

/-- One-step unfolding of the option loop at positive fuel. -/
theorem parse_options_go_succ_eq (fuel : Nat) (acc : KeyOptions)
    (leftovers : List Char) :
    parse_options_go (fuel + 1) acc leftovers =
      (if leftovers.isEmpty then .ok (acc, leftovers)
       else
        match parse_option_name leftovers with
        | .error _ => .ok (acc, leftovers)
        | .ok (name, rem1) =>
          if rem1.head? = some '=' then
            match parse_option_value (rem1.drop 1) with
            | .error e => .error e
            | .ok (value, rem2) =>
              if rem2.head? = some ',' then
                parse_options_go fuel (acc ++ [(name, some value)]) (skip_char rem2)
              else .ok (acc ++ [(name, some value)], rem2)
          else
            if rem1.head? = some ',' then
              parse_options_go fuel (acc ++ [(name, none)]) (skip_char rem1)
            else .ok (acc ++ [(name, none)], rem1)) := rfl

theorem parse_options_go_step_none_stop {fuel : Nat} {acc : KeyOptions}
    {n : List Char} {d : Char} {t : List Char}
    (hn : n.all isNameChar = true) (hd : isNameChar d = false)
    (hdne : d ≠ '=') (hdnc : d ≠ ',') :
    parse_options_go (fuel + 1) acc (n ++ d :: t) =
      .ok (acc ++ [(n, none)], d :: t) := by
  rw [parse_options_go_succ_eq, if_neg (by simp), parse_option_name_render hn hd]
  simp [hdne, hdnc]

theorem parse_options_go_step_none_comma {fuel : Nat} {acc : KeyOptions}
    {n : List Char} {t : List Char} (hn : n.all isNameChar = true) :
    parse_options_go (fuel + 1) acc (n ++ ',' :: t) =
      parse_options_go fuel (acc ++ [(n, none)]) t := by
  rw [parse_options_go_succ_eq, if_neg (by simp),
    parse_option_name_render hn (by decide)]
  simp [skip_char_cons]

theorem parse_options_go_step_some_stop {fuel : Nat} {acc : KeyOptions}
    {n v : List Char} {d : Char} {t : List Char}
    (hn : n.all isNameChar = true) (hv : valueOk v false = true)
    (hd : isNameChar d = false) (hdne : d ≠ '=') (hdnc : d ≠ ',') :
    parse_options_go (fuel + 1) acc (n ++ '=' :: '"' :: (v ++ '"' :: d :: t)) =
      .ok (acc ++ [(n, some v)], d :: t) := by
  rw [parse_options_go_succ_eq, if_neg (by simp),
    parse_option_name_render hn (by decide)]
  simp [List.drop_succ_cons, parse_option_value_render hv, hdnc]

theorem parse_options_go_step_some_comma {fuel : Nat} {acc : KeyOptions}
    {n v : List Char} {t : List Char}
    (hn : n.all isNameChar = true) (hv : valueOk v false = true) :
    parse_options_go (fuel + 1) acc (n ++ '=' :: '"' :: (v ++ '"' :: ',' :: t)) =
      parse_options_go fuel (acc ++ [(n, some v)]) t := by
  rw [parse_options_go_succ_eq, if_neg (by simp),
    parse_option_name_render hn (by decide)]
  simp [List.drop_succ_cons, parse_option_value_render hv, skip_char_cons]

theorem renderOptions_cons_cons (o r : KeyOption) (rs : KeyOptions) :
    renderOptions (o :: r :: rs) = renderOption o ++ ',' :: renderOptions (r :: rs) :=
  rfl

/-- Running the option loop over a rendered non-empty valid option list
followed by a space consumes exactly the rendered options and stops at the
space. -/
theorem parse_options_go_render :
    ∀ (opts : KeyOptions) (fuel : Nat) (acc : KeyOptions) (K : List Char),
      opts ≠ [] → (∀ o ∈ opts, validOption o) →
      (renderOptions opts ++ ' ' :: K).length < fuel →
      parse_options_go fuel acc (renderOptions opts ++ ' ' :: K) =
        .ok (acc ++ opts, ' ' :: K) := by
  intro opts
  induction opts with
  | nil => intro _ _ _ h; exact absurd rfl h
  | cons o rest ih =>
    intro fuel acc K _ hval hfuel
    obtain ⟨fuel2, rfl⟩ : ∃ f, fuel = f + 1 := by
      cases fuel with
      | zero => exact absurd hfuel (by omega)
      | succ f => exact ⟨f, rfl⟩
    rcases o with ⟨n, vo⟩
    have hvo := hval (n, vo) (by simp)
    rcases rest with _ | ⟨r, rs⟩
    · rcases vo with _ | v
      · have hsh : renderOptions [(n, none)] ++ ' ' :: K = n ++ ' ' :: K := rfl
        rw [hsh,
          parse_options_go_step_none_stop hvo.1.2 (by decide) (by decide) (by decide)]
      · have hsh : renderOptions [(n, some v)] ++ ' ' :: K =
            n ++ '=' :: '"' :: (v ++ '"' :: ' ' :: K) := by
          simp [renderOptions, renderOption]
        rw [hsh,
          parse_options_go_step_some_stop hvo.1.2 (hvo.2 v rfl)
            (by decide) (by decide) (by decide)]
    · have hro : 1 ≤ (renderOption (n, vo)).length := by
        have hne2 := renderOption_ne_nil hvo
        cases hrn : renderOption (n, vo) with
        | nil => exact absurd hrn hne2
        | cons a as => simp [hrn]
      have h1 : (renderOption (n, vo) ++
          ',' :: (renderOptions (r :: rs) ++ ' ' :: K)).length < fuel2 + 1 := by
        have hsh0 : renderOptions ((n, vo) :: r :: rs) ++ ' ' :: K =
            renderOption (n, vo) ++ ',' :: (renderOptions (r :: rs) ++ ' ' :: K) := by
          rw [renderOptions_cons_cons]
          simp
        rw [← hsh0]
        exact hfuel
      have hfuel2 : (renderOptions (r :: rs) ++ ' ' :: K).length < fuel2 := by
        simp only [List.length_append, List.length_cons] at h1 ⊢
        omega
      have hvalrest : ∀ o2 ∈ r :: rs, validOption o2 :=
        fun o2 ho2 => hval o2 (by simp [ho2])
      rcases vo with _ | v
      · have hsh : renderOptions ((n, none) :: r :: rs) ++ ' ' :: K =
            n ++ ',' :: (renderOptions (r :: rs) ++ ' ' :: K) := by
          rw [renderOptions_cons_cons]
          simp [renderOption]
        rw [hsh, parse_options_go_step_none_comma hvo.1.2,
          ih fuel2 (acc ++ [(n, none)]) K (by simp) hvalrest hfuel2]
        simp
      · have hsh : renderOptions ((n, some v) :: r :: rs) ++ ' ' :: K =
            n ++ '=' :: '"' :: (v ++ '"' :: ',' :: (renderOptions (r :: rs) ++ ' ' :: K)) := by
          rw [renderOptions_cons_cons]
          simp [renderOption]
        rw [hsh, parse_options_go_step_some_comma hvo.1.2 (hvo.2 v rfl),
          ih fuel2 (acc ++ [(n, some v)]) K (by simp) hvalrest hfuel2]
        simp

/-- `parse_options` over a rendered non-empty valid option list followed
by a space and further text. -/
theorem parse_options_render {opts : KeyOptions} {K : List Char}
    (hne : opts ≠ []) (hval : ∀ o ∈ opts, validOption o) :
    parse_options (renderOptions opts ++ ' ' :: K) = .ok (opts, ' ' :: K) := by
  unfold parse_options
  have h := parse_options_go_render opts
    ((renderOptions opts ++ ' ' :: K).length + 1) [] K hne hval (by omega)
  simpa using h

theorem tail_cond_of_comment {comment : List Char}
    (hchead : ∀ h0, comment.head? = some h0 →
      isAsciiWhitespace h0 = false ∧ h0 ≠ '=') :
    (if comment = [] then ([] : List Char) else ' ' :: comment) = [] ∨
      ((if comment = [] then ([] : List Char) else ' ' :: comment).head? = some ' ' ∧
        (if comment = [] then ([] : List Char) else ' ' :: comment)[1]? ≠ some '=') := by
  rcases comment with _ | ⟨h0, cs⟩
  · exact Or.inl rfl
  · refine Or.inr ⟨rfl, ?_⟩
    simpa using (hchead h0 rfl).2

theorem comments_of_tail {comment : List Char}
    (hcnl : '\n' ∉ comment)
    (hchead : ∀ h0, comment.head? = some h0 →
      isAsciiWhitespace h0 = false ∧ h0 ≠ '=')
    (hccr : ¬(2 ≤ comment.length ∧ comment[comment.length - 2]? = some '\r')) :
    parse_comments (skip_whitespace
      (if comment = [] then ([] : List Char) else ' ' :: comment)) =
      (comment, []) := by
  rcases comment with _ | ⟨h0, cs⟩
  · rfl
  · show parse_comments (skip_whitespace (' ' :: h0 :: cs)) = _
    rw [skip_whitespace_space (hchead h0 rfl).1]
    exact parse_comments_no_lf hcnl hccr

/-- C1 counterexample: the claim admits padded payloads — `AA==` is a
base64-alphabet run plus two padding characters of total length 4 — yet
the rendered line `ssh-rsa AA==` (no options, empty comment) is rejected
by `parse_line` instead of round-tripping. -/
theorem spec_C1_counterexample :
    ("AA==".toList = "AA".toList ++ "==".toList ∧
      ("AA".toList).all isBase64Char = true ∧
      ("AA==".toList).length % 4 = 0 ∧
      '\n' ∉ ([] : List Char)) ∧
    KeyAuthorization.parse (renderLine [] .SshRsa "AA==".toList []) =
      .error .CouldNotFindKeyAfterOptions :=
  ⟨⟨rfl, rfl, rfl, by simp⟩, rfl⟩

/-- C1 amended: round-trip on structure holds once the payload is an
unpadded base64-alphabet run (non-empty, length divisible by 4) and the
comment, besides containing no line feed, does not begin with ASCII
whitespace or `=` and does not have a carriage return as its
second-to-last character.  Rendering such a structured value per the
grammar and parsing returns exactly its components. -/
theorem spec_C1_amended (opts : KeyOptions) (kt : KeyType)
    (b64 comment : List Char)
    (hopts : ∀ o ∈ opts, validOption o)
    (hne : b64 ≠ []) (hall : b64.all isBase64Char = true)
    (hlen : b64.length % 4 = 0)
    (hcnl : '\n' ∉ comment)
    (hchead : comment.head?.all
      (fun h0 => !(isAsciiWhitespace h0) && h0 != '=') = true)
    (hccr : ¬(2 ≤ comment.length ∧ comment[comment.length - 2]? = some '\r')) :
    KeyAuthorization.parse (renderLine opts kt b64 comment) =
      .ok ⟨opts, ⟨kt, b64⟩, comment⟩ := by
  have hchead2 : ∀ h0, comment.head? = some h0 →
      isAsciiWhitespace h0 = false ∧ h0 ≠ '=' := by
    intro h0 hh
    rw [hh] at hchead
    simp only [Option.all_some, Bool.and_eq_true, bne_iff_ne, ne_eq,
      Bool.not_eq_true'] at hchead
    exact hchead
  rcases opts with _ | ⟨⟨n, vo⟩, rest⟩
  · exact parse_renderLine_nil hne hall hlen hcnl hchead2 hccr
  · have hline : renderLine ((n, vo) :: rest) kt b64 comment =
        renderOptions ((n, vo) :: rest) ++ ' ' ::
          (ktName kt ++ ' ' :: (b64 ++
            (if comment = [] then [] else ' ' :: comment))) := by
      simp [renderLine]
    obtain ⟨e, he⟩ := @optionless_fails n vo rest
      (hopts (n, vo) (by simp)).1.2 kt
      (b64 ++ (if comment = [] then [] else ' ' :: comment))
    have hopt : parse_options (renderOptions ((n, vo) :: rest) ++ ' ' ::
        (ktName kt ++ ' ' :: (b64 ++
          (if comment = [] then [] else ' ' :: comment)))) =
        .ok ((n, vo) :: rest, ' ' :: (ktName kt ++ ' ' :: (b64 ++
          (if comment = [] then [] else ' ' :: comment)))) :=
      parse_options_render (by simp) hopts
    obtain ⟨k0, ktail, hkt0, hk0⟩ := ktName_cons kt
    have hskip : skip_whitespace (' ' :: (ktName kt ++ ' ' :: (b64 ++
        (if comment = [] then [] else ' ' :: comment)))) =
        ktName kt ++ ' ' :: (b64 ++
          (if comment = [] then [] else ' ' :: comment)) := by
      rw [hkt0]
      exact skip_whitespace_space hk0
    have hpk2 : parse_public_key (ktName kt ++ ' ' :: (b64 ++
        (if comment = [] then [] else ' ' :: comment))) =
        .ok (⟨kt, b64⟩, if comment = [] then [] else ' ' :: comment) :=
      @parse_public_key_render kt [] b64
        (if comment = [] then [] else ' ' :: comment) (by simp) hne hall hlen
        (tail_cond_of_comment hchead2)
    have hcomm := comments_of_tail hcnl hchead2 hccr
    rw [hline]
    unfold KeyAuthorization.parse
    simp only [he, hopt, hskip, hpk2, hcomm]

/-- C1 witness: two options (one valueless, one with an escaped value),
an ed25519 key, and a non-empty comment. -/
theorem spec_C1_witness :
    KeyAuthorization.parse
        (renderLine [(['a'], none), (['b'], some ['x', '\\', '"', 'y'])]
          .SshEd25519 "AAAA".toList "hi".toList) =
      .ok ⟨[(['a'], none), (['b'], some ['x', '\\', '"', 'y'])],
        ⟨.SshEd25519, "AAAA".toList⟩, "hi".toList⟩ :=
  spec_C1_amended _ _ _ _
    (by
      intro o ho
      simp only [List.mem_cons, List.not_mem_nil, or_false] at ho
      rcases ho with rfl | rfl
      · exact ⟨⟨by decide, by decide⟩, fun v hv => by cases hv⟩
      · exact ⟨⟨by decide, by decide⟩, fun v hv => by cases hv; decide⟩)
    (by decide) (by decide) (by decide) (by decide) (by decide) (by decide)

theorem nameChar_of_not_pred {c : Char}
    (h : (!(c.isAlphanum || c == '-')) = false) : isNameChar c = true := by
  have h2 : (c.isAlphanum || c == '-') = true := by
    cases hb : (c.isAlphanum || c == '-') with
    | true => rfl
    | false => rw [hb] at h; simp at h
  simpa [isNameChar] using h2

theorem mem_take_getElem {l : List Char} {k : Nat} {c : Char}
    (hc : c ∈ l.take k) : ∃ i, i < k ∧ l[i]? = some c := by
  rcases List.mem_iff_getElem?.mp hc with ⟨i, hi⟩
  have hik : i < k := by
    have := (List.getElem?_eq_some.mp hi).1
    simp only [List.length_take] at this
    omega
  exact ⟨i, hik, (List.getElem?_take_of_lt hik).symm.trans hi⟩

/-- `parse_option_name` never fails, and the name it returns consists only
of ASCII alphanumerics and dashes. -/
theorem parse_option_name_ok (input : List Char) :
    ∃ n rem, parse_option_name input = .ok (n, rem) ∧
      n.all isNameChar = true := by
  refine ⟨_, _, rfl, ?_⟩
  rw [List.all_eq_true]
  intro c hc
  cases hpos : position (fun c => !(c.isAlphanum || c == '-')) input with
  | none =>
    rw [hpos] at hc
    simp only [Option.getD_none, List.take_length] at hc
    exact nameChar_of_not_pred (position_eq_none_iff.mp hpos c hc)
  | some j =>
    rw [hpos] at hc
    simp only [Option.getD_some] at hc
    obtain ⟨i, hik, hig⟩ := mem_take_getElem hc
    exact nameChar_of_not_pred (position_before hpos i hik c hig)

/-- Loop invariant: every option the loop returns has an
alphanumeric-and-dash name (possibly empty). -/
theorem parse_options_go_names :
    ∀ (fuel : Nat) (acc : KeyOptions) (leftovers : List Char)
      (o : KeyOptions) (rem : List Char),
      parse_options_go fuel acc leftovers = .ok (o, rem) →
      (∀ x ∈ acc, x.1.all isNameChar = true) →
      ∀ x ∈ o, x.1.all isNameChar = true := by
  intro fuel
  induction fuel with
  | zero =>
    intro acc l o rem h hacc
    have h2 : (Except.ok (acc, l) : ParseResult KeyOptions) = .ok (o, rem) := h
    cases h2
    exact hacc
  | succ fuel ih =>
    intro acc l o rem h hacc
    rw [parse_options_go_succ_eq] at h
    by_cases hemp : l.isEmpty = true
    · rw [if_pos hemp] at h
      cases h
      exact hacc
    · rw [if_neg hemp] at h
      obtain ⟨name, rem1, hname, hnall⟩ := parse_option_name_ok l
      rw [hname] at h
      have h3 : (if rem1.head? = some '=' then
          match parse_option_value (rem1.drop 1) with
          | .error e => (.error e : ParseResult KeyOptions)
          | .ok (value, rem2) =>
            if rem2.head? = some ',' then
              parse_options_go fuel (acc ++ [(name, some value)]) (skip_char rem2)
            else .ok (acc ++ [(name, some value)], rem2)
        else
          if rem1.head? = some ',' then
            parse_options_go fuel (acc ++ [(name, none)]) (skip_char rem1)
          else .ok (acc ++ [(name, none)], rem1)) = .ok (o, rem) := h
      clear h
      have hacc2 : ∀ v2 : Option (List Char),
          ∀ x ∈ acc ++ [(name, v2)], x.1.all isNameChar = true := by
        intro v2 x hx
        rcases List.mem_append.mp hx with hx | hx
        · exact hacc x hx
        · simp only [List.mem_singleton] at hx
          subst hx
          exact hnall
      by_cases heq : rem1.head? = some '='
      · rw [if_pos heq] at h3
        cases hval : parse_option_value (rem1.drop 1) with
        | error e =>
          rw [hval] at h3
          cases h3
        | ok vr =>
          rcases vr with ⟨value, rem2⟩
          rw [hval] at h3
          have h4 : (if rem2.head? = some ',' then
              parse_options_go fuel (acc ++ [(name, some value)]) (skip_char rem2)
            else .ok (acc ++ [(name, some value)], rem2)) = .ok (o, rem) := h3
          by_cases hcm : rem2.head? = some ','
          · rw [if_pos hcm] at h4
            exact ih _ _ _ _ h4 (hacc2 (some value))
          · rw [if_neg hcm] at h4
            cases h4
            exact hacc2 (some value)
      · rw [if_neg heq] at h3
        by_cases hcm : rem1.head? = some ','
        · rw [if_pos hcm] at h3
          exact ih _ _ _ _ h3 (hacc2 none)
        · rw [if_neg hcm] at h3
          cases h3
          exact hacc2 none

theorem parse_options_names {input : List Char} {o : KeyOptions}
    {rem : List Char} (h : parse_options input = .ok (o, rem)) :
    ∀ x ∈ o, x.1.all isNameChar = true :=
  parse_options_go_names _ _ _ _ _ h (by simp)

/-- C5 counterexample: `,x ssh-rsa AAAA` parses successfully, and its
returned option list contains an option with an EMPTY name — the claimed
non-emptiness invariant fails. -/
theorem spec_C5_counterexample :
    KeyAuthorization.parse ",x ssh-rsa AAAA".toList =
        .ok ⟨[([], none), (['x'], none)], ⟨.SshRsa, "AAAA".toList⟩, []⟩ ∧
      ¬(∀ o ∈ ([([], none), (['x'], none)] : KeyOptions), o.1 ≠ []) :=
  ⟨rfl, fun hall => hall ([], none) (by simp) rfl⟩

/-- C5 amended: every option in the options sequence returned by a
successful `parse_line` has a name consisting only of ASCII alphanumerics
and `-`, but the name may be empty (the non-emptiness half of the claimed
invariant does not hold). -/
theorem spec_C5_amended (s : List Char) (r : KeyAuthorization)
    (h : KeyAuthorization.parse s = .ok r) :
    ∀ o ∈ r.options, o.1.all isNameChar = true := by
  unfold KeyAuthorization.parse at h
  cases hpk : parse_public_key s with
  | ok pr =>
    rcases pr with ⟨pk, rem0⟩
    rw [hpk] at h
    have h2 : (Except.ok ⟨[], pk, (parse_comments (skip_whitespace rem0)).1⟩ :
        Except LineError KeyAuthorization) = .ok r := h
    cases h2
    intro o ho
    simp at ho
  | error e =>
    rw [hpk] at h
    cases hopt : parse_options s with
    | error e2 =>
      rw [hopt] at h
      have h2 : (Except.error LineError.CouldNotFindOptionsOrKey :
          Except LineError KeyAuthorization) = .ok r := h
      cases h2
    | ok pr =>
      rcases pr with ⟨options, rem1⟩
      rw [hopt] at h
      have h3 : (match parse_public_key (skip_whitespace rem1) with
          | Except.ok (public_key, remainder2) =>
            (Except.ok ⟨options, public_key,
              (parse_comments (skip_whitespace remainder2)).1⟩ :
              Except LineError KeyAuthorization)
          | Except.error _ => .error .CouldNotFindKeyAfterOptions) = .ok r := h
      clear h
      cases hpk2 : parse_public_key (skip_whitespace rem1) with
      | error e3 =>
        rw [hpk2] at h3
        have h2 : (Except.error LineError.CouldNotFindKeyAfterOptions :
            Except LineError KeyAuthorization) = .ok r := h3
        cases h2
      | ok pr2 =>
        rcases pr2 with ⟨pk2, rem2⟩
        rw [hpk2] at h3
        have h2 : (Except.ok ⟨options, pk2,
            (parse_comments (skip_whitespace rem2)).1⟩ :
            Except LineError KeyAuthorization) = .ok r := h3
        cases h2
        simpa using parse_options_names hopt

/-- C5 witness: the single option name of `a ssh-ed25519 AAAAtHUM`. -/
theorem spec_C5_witness : (['a'] : List Char).all isNameChar = true :=
  spec_C5_amended "a ssh-ed25519 AAAAtHUM".toList
    ⟨[(['a'], none)], ⟨.SshEd25519, "AAAAtHUM".toList⟩, []⟩ rfl
    (['a'], none) (by simp)

/-- The fail-fast core of the file driver: with every earlier line either
comment-classified or key-parseable, the loop stops at the first failing
line, reporting its zero-based index, regardless of what follows it. -/
theorem parseLines_fail_fast :
    ∀ (pre : List (List Char)) (i : Nat) (bad : List Char)
      (post : List (List Char)) (e : LineError),
      (∀ l ∈ pre, isCommentLine l = true ∨
        ∃ k, KeyAuthorization.parse l = .ok k) →
      isCommentLine bad = false →
      KeyAuthorization.parse bad = .error e →
      parseLines i (pre ++ bad :: post) = .error ⟨i + pre.length, e⟩ := by
  intro pre
  induction pre with
  | nil =>
    intro i bad post e hpre hbad hparse
    show parseLines i (bad :: post) = _
    unfold parseLines
    rw [if_neg (by simp [hbad]), hparse]
    simp
  | cons l ls ih =>
    intro i bad post e hpre hbad hparse
    have harith : i + 1 + ls.length = i + (ls.length + 1) := by omega
    show parseLines i (l :: (ls ++ bad :: post)) = _
    unfold parseLines
    by_cases hc : isCommentLine l = true
    · rw [if_pos hc,
        ih (i + 1) bad post e (fun l2 hl2 => hpre l2 (by simp [hl2])) hbad hparse]
      simp [harith]
    · rw [if_neg hc]
      rcases hpre l (by simp) with hcl | ⟨k, hk⟩
      · exact absurd hcl hc
      · rw [hk,
          ih (i + 1) bad post e (fun l2 hl2 => hpre l2 (by simp [hl2])) hbad hparse]
        simp [harith]

/-- C8: a file whose line split has a prefix of good lines (comments or
parseable keys) followed by a first failing non-comment line makes
`parse_file` return an error carrying that line's zero-based index — for
any continuation of the file after the failing line (fail-fast: nothing
past it is examined), and by the result type no partial `KeysFile` is
produced. -/
theorem spec_C8_fail_fast (s : List Char) (pre : List (List Char))
    (bad : List Char) (post : List (List Char)) (e : LineError)
    (hsplit : rustLines s = pre ++ bad :: post)
    (hpre : ∀ l ∈ pre, isCommentLine l = true ∨
      ∃ k, KeyAuthorization.parse l = .ok k)
    (hbad : isCommentLine bad = false)
    (hparse : KeyAuthorization.parse bad = .error e) :
    KeysFile.fromChars s = .error ⟨pre.length, e⟩ := by
  unfold KeysFile.fromChars
  rw [hsplit, parseLines_fail_fast pre 0 bad post e hpre hbad hparse]
  simp

/-- C8 witness: the spec's own scenario — failing on line 3 of 5 reports
index 2. -/
theorem spec_C8_witness :
    KeysFile.fromChars "# a\nssh-rsa AAAA\nbad line\n# b\nssh-rsa AAAA".toList =
      .error ⟨2, .CouldNotFindKeyAfterOptions⟩ :=
  spec_C8_fail_fast _ ["# a".toList, "ssh-rsa AAAA".toList] "bad line".toList
    ["# b".toList, "ssh-rsa AAAA".toList] .CouldNotFindKeyAfterOptions
    (by decide)
    (by
      intro l hl
      simp only [List.mem_cons, List.not_mem_nil, or_false] at hl
      rcases hl with rfl | rfl
      · exact Or.inl (by decide)
      · exact Or.inr ⟨⟨[], ⟨.SshRsa, "AAAA".toList⟩, []⟩, rfl⟩)
    (by decide) rfl

/-- The line loop, on success, classifies each input line in place: the
output has the same length, comment-like lines become `Comment` entries
holding the line text verbatim at the same index, and other lines become
`Key` entries of their successful parse at the same index. -/
theorem parseLines_structure :
    ∀ (lines : List (List Char)) (i : Nat) (out : List KeysFileLine),
      parseLines i lines = .ok out →
      out.length = lines.length ∧
      ∀ (j : Nat) (l : List Char), lines[j]? = some l →
        (isCommentLine l = true → out[j]? = some (KeysFileLine.Comment l)) ∧
        (isCommentLine l = false →
          ∃ k, KeyAuthorization.parse l = .ok k ∧
            out[j]? = some (KeysFileLine.Key k)) := by
  intro lines
  induction lines with
  | nil =>
    intro i out h
    have h2 : (Except.ok [] : Except FileError (List KeysFileLine)) = .ok out := h
    cases h2
    exact ⟨rfl, fun j l hl => by simp at hl⟩
  | cons l0 ls ih =>
    intro i out h
    unfold parseLines at h
    by_cases hc : isCommentLine l0 = true
    · rw [if_pos hc] at h
      cases hrec : parseLines (i + 1) ls with
      | error e =>
        rw [hrec] at h
        have h2 : (Except.error e : Except FileError (List KeysFileLine)) =
            .ok out := h
        cases h2
      | ok outs =>
        rw [hrec] at h
        have h2 : (Except.ok (KeysFileLine.Comment l0 :: outs) :
            Except FileError (List KeysFileLine)) = .ok out := h
        cases h2
        obtain ⟨hlen, hrest⟩ := ih (i + 1) outs hrec
        refine ⟨by simp [hlen], ?_⟩
        intro j l hl
        cases j with
        | zero =>
          have hll : l0 = l := by simpa using hl
          subst hll
          exact ⟨fun _ => by simp, fun hc2 => absurd hc (by simp [hc2])⟩
        | succ j =>
          have hl2 : ls[j]? = some l := by simpa using hl
          obtain ⟨ha, hb⟩ := hrest j l hl2
          refine ⟨fun hcl => by simpa using ha hcl, fun hcl => ?_⟩
          obtain ⟨k, hk1, hk2⟩ := hb hcl
          exact ⟨k, hk1, by simpa using hk2⟩
    · rw [if_neg hc] at h
      cases hkey : KeyAuthorization.parse l0 with
      | error e =>
        rw [hkey] at h
        have h2 : (Except.error (⟨i, e⟩ : FileError) :
            Except FileError (List KeysFileLine)) = .ok out := h
        cases h2
      | ok k0 =>
        rw [hkey] at h
        cases hrec : parseLines (i + 1) ls with
        | error e =>
          rw [hrec] at h
          have h2 : (Except.error e : Except FileError (List KeysFileLine)) =
              .ok out := h
          cases h2
        | ok outs =>
          rw [hrec] at h
          have h2 : (Except.ok (KeysFileLine.Key k0 :: outs) :
              Except FileError (List KeysFileLine)) = .ok out := h
          cases h2
          obtain ⟨hlen, hrest⟩ := ih (i + 1) outs hrec
          refine ⟨by simp [hlen], ?_⟩
          intro j l hl
          cases j with
          | zero =>
            have hll : l0 = l := by simpa using hl
            subst hll
            refine ⟨fun hcl => absurd hcl (by simp [hc]), fun _ => ?_⟩
            exact ⟨k0, hkey, by simp⟩
          | succ j =>
            have hl2 : ls[j]? = some l := by simpa using hl
            obtain ⟨ha, hb⟩ := hrest j l hl2
            refine ⟨fun hcl => by simpa using ha hcl, fun hcl => ?_⟩
            obtain ⟨k, hk1, hk2⟩ := hb hcl
            exact ⟨k, hk1, by simpa using hk2⟩

/-- C9: on a successful `parse_file`, the output document has one entry
per input line in the same order; every line that is all-whitespace or
starts with `#` is recorded as a `Comment` holding exactly that line's
text, and every other line is recorded as the `Key` it parses to. -/
theorem spec_C9_comment_lines (s : List Char) (f : KeysFile)
    (h : KeysFile.fromChars s = .ok f) :
    f.lines.length = (rustLines s).length ∧
    (∀ (j : Nat) (l : List Char), (rustLines s)[j]? = some l →
      isCommentLine l = true →
      f.lines[j]? = some (KeysFileLine.Comment l)) ∧
    (∀ (j : Nat) (l : List Char), (rustLines s)[j]? = some l →
      isCommentLine l = false →
      ∃ k, KeyAuthorization.parse l = .ok k ∧
        f.lines[j]? = some (KeysFileLine.Key k)) := by
  unfold KeysFile.fromChars at h
  cases hp : parseLines 0 (rustLines s) with
  | error e =>
    rw [hp] at h
    have h2 : (Except.error e : Except FileError KeysFile) = .ok f := h
    cases h2
  | ok ls =>
    rw [hp] at h
    have h2 : (Except.ok (⟨ls⟩ : KeysFile) : Except FileError KeysFile) =
        .ok f := h
    cases h2
    obtain ⟨hlen, hrest⟩ := parseLines_structure _ 0 ls hp
    exact ⟨hlen, fun j l hl hc => (hrest j l hl).1 hc,
      fun j l hl hc => (hrest j l hl).2 hc⟩

/-- C9 witness: a `#` comment line, a whitespace-only line, and a key
line, recorded in order with the original line text. -/
theorem spec_C9_witness :
    (⟨[KeysFileLine.Comment "# hello".toList, .Comment " ".toList,
        .Key ⟨[], ⟨.SshRsa, "AAAA".toList⟩, []⟩]⟩ : KeysFile).lines.length =
        (rustLines "# hello\n \nssh-rsa AAAA".toList).length ∧
      (⟨[KeysFileLine.Comment "# hello".toList, .Comment " ".toList,
        .Key ⟨[], ⟨.SshRsa, "AAAA".toList⟩, []⟩]⟩ : KeysFile).lines[0]? =
        some (.Comment "# hello".toList) ∧
      (⟨[KeysFileLine.Comment "# hello".toList, .Comment " ".toList,
        .Key ⟨[], ⟨.SshRsa, "AAAA".toList⟩, []⟩]⟩ : KeysFile).lines[1]? =
        some (.Comment " ".toList) := by
  have H := spec_C9_comment_lines "# hello\n \nssh-rsa AAAA".toList
    ⟨[KeysFileLine.Comment "# hello".toList, .Comment " ".toList,
      .Key ⟨[], ⟨.SshRsa, "AAAA".toList⟩, []⟩]⟩ rfl
  exact ⟨H.1, H.2.1 0 "# hello".toList rfl rfl, H.2.1 1 " ".toList rfl rfl⟩

/-! ## Shape and prefix-stability lemmas (appending text to a parsed line) -/

theorem parse_key_type_shape {input : List Char} {kt : KeyType}
    {rem : List Char} (h : parse_key_type input = .ok (kt, rem)) :
    ∃ j, position (fun c => c == ' ') input = some j ∧
      KeyType.fromChars (input.take j) = some kt ∧ rem = input.drop j := by
  cases hpos : position (fun c => c == ' ') input with
  | none =>
    unfold parse_key_type at h
    rw [hpos] at h
    cases h
  | some j =>
    rw [parse_key_type_eval hpos] at h
    cases hfc : KeyType.fromChars (input.take j) with
    | none =>
      rw [hfc] at h
      cases h
    | some kt2 =>
      rw [hfc] at h
      have h2 : (Except.ok (kt2, input.drop j) : ParseResult KeyType) =
          .ok (kt, rem) := h
      cases h2
      exact ⟨j, rfl, hfc, rfl⟩

theorem parse_base64_shape {input tok rest : List Char}
    (h : parse_base64 input = .ok (tok, rest)) :
    tok = input.take (base64StrEnd input) ∧
      rest = input.drop (base64StrEnd input) ∧
      tok.length % 4 = 0 ∧
      ∀ c0, rest.head? = some c0 → isAsciiWhitespace c0 = true := by
  unfold parse_base64 at h
  cases hh : (input.drop (base64StrEnd input)).head? with
  | none =>
    rw [hh] at h
    by_cases hlen : (input.take (base64StrEnd input)).length % 4 = 0
    · rw [if_pos hlen] at h
      have h2 : (Except.ok (input.take (base64StrEnd input),
          input.drop (base64StrEnd input)) : ParseResult (List Char)) =
          .ok (tok, rest) := h
      cases h2
      exact ⟨rfl, rfl, hlen, fun c0 hc0 => by rw [hh] at hc0; cases hc0⟩
    · rw [if_neg hlen] at h
      cases h
  | some c =>
    rw [hh] at h
    have h3 : (if (!isAsciiWhitespace c) = true then
        (Except.error (.Unmatched (.trailingCharacter c)) : ParseResult (List Char))
      else
        if (input.take (base64StrEnd input)).length % 4 = 0 then
          .ok (input.take (base64StrEnd input), input.drop (base64StrEnd input))
        else .error (.Unmatched .invalidBase64Length)) = .ok (tok, rest) := h
    clear h
    cases hws : isAsciiWhitespace c with
    | false =>
      rw [hws] at h3
      simp at h3
    | true =>
      rw [hws] at h3
      simp only [Bool.not_true, Bool.false_eq_true, if_false] at h3
      by_cases hlen : (input.take (base64StrEnd input)).length % 4 = 0
      · rw [if_pos hlen] at h3
        have h2 : (Except.ok (input.take (base64StrEnd input),
            input.drop (base64StrEnd input)) : ParseResult (List Char)) =
            .ok (tok, rest) := h3
        cases h2
        refine ⟨rfl, rfl, hlen, fun c0 hc0 => ?_⟩
        rw [hh] at hc0
        cases hc0
        exact hws
      · rw [if_neg hlen] at h3
        cases h3

theorem parse_public_key_shape {input : List Char} {pk : PublicKey}
    {r2 : List Char} (h : parse_public_key input = .ok (pk, r2)) :
    ∃ rem, parse_key_type input = .ok (pk.key_type, rem) ∧
      parse_base64 (skip_whitespace rem) = .ok (pk.encoded_key, r2) := by
  unfold parse_public_key at h
  cases hkt : parse_key_type input with
  | error e =>
    rw [hkt] at h
    cases h
  | ok p =>
    rcases p with ⟨kt, rem⟩
    rw [hkt] at h
    have h3 : (match parse_encoded_key (skip_whitespace rem) with
        | Except.error e => (Except.error e : ParseResult PublicKey)
        | Except.ok (encoded_key, remainder2) =>
          .ok (⟨kt, encoded_key⟩, remainder2)) = .ok (pk, r2) := h
    clear h
    cases hb : parse_encoded_key (skip_whitespace rem) with
    | error e =>
      rw [hb] at h3
      cases h3
    | ok q =>
      rcases q with ⟨ek, rr⟩
      rw [hb] at h3
      have h2 : (Except.ok (⟨kt, ek⟩, rr) : ParseResult PublicKey) =
          .ok (pk, r2) := h3
      cases h2
      exact ⟨rem, rfl, hb⟩

theorem skip_whitespace_eq_drop (l : List Char) :
    skip_whitespace l =
      l.drop ((position (fun c => !(isAsciiWhitespace c)) l).getD 0) := rfl

theorem mem_of_mem_skip_whitespace {l : List Char} {c : Char}
    (h : c ∈ skip_whitespace l) : c ∈ l := by
  rw [skip_whitespace_eq_drop] at h
  exact List.mem_of_mem_drop h

theorem skip_whitespace_append {l w : List Char} {c : Char} (hc : c ∈ l)
    (hcw : isAsciiWhitespace c = false) :
    skip_whitespace (l ++ w) = skip_whitespace l ++ w := by
  obtain ⟨k, hk⟩ := @position_eq_some_of_mem
    (fun c => !(isAsciiWhitespace c)) l c hc (by simp [hcw])
  rw [skip_whitespace_eq_drop, skip_whitespace_eq_drop,
    position_append_left hk w, hk]
  simp only [Option.getD_some]
  exact List.drop_append_of_le_length (Nat.le_of_lt (position_lt_length hk))

theorem parse_key_type_append {t w : List Char} {kt : KeyType}
    {rem : List Char} (h : parse_key_type t = .ok (kt, rem)) :
    parse_key_type (t ++ w) = .ok (kt, rem ++ w) := by
  obtain ⟨j, hpos, hfc, rfl⟩ := parse_key_type_shape h
  have hjl : j < t.length := position_lt_length hpos
  have h2 := @parse_key_type_ok_of (t ++ w) j kt
    (position_append_left hpos w)
    (by rwa [List.take_append_of_le_length (Nat.le_of_lt hjl)])
  rwa [List.drop_append_of_le_length (Nat.le_of_lt hjl)] at h2

theorem parse_option_name_shape {i n rem : List Char}
    (h : parse_option_name i = .ok (n, rem)) :
    n = i.take ((position (fun c => !(c.isAlphanum || c == '-')) i).getD i.length) ∧
    rem = i.drop ((position (fun c => !(c.isAlphanum || c == '-')) i).getD i.length) := by
  unfold parse_option_name at h
  have h2 : (Except.ok
      (i.take ((position (fun c => !(c.isAlphanum || c == '-')) i).getD i.length),
        i.drop ((position (fun c => !(c.isAlphanum || c == '-')) i).getD i.length)) :
      ParseResult (List Char)) = .ok (n, rem) := h
  cases h2
  exact ⟨rfl, rfl⟩

theorem parse_option_name_append {i w n rem : List Char}
    (h : parse_option_name i = .ok (n, rem)) (hne : rem ≠ []) :
    parse_option_name (i ++ w) = .ok (n, rem ++ w) := by
  obtain ⟨hn, hr⟩ := parse_option_name_shape h
  cases hpos : position (fun c => !(c.isAlphanum || c == '-')) i with
  | none =>
    rw [hpos] at hr
    simp only [Option.getD_none, List.drop_length] at hr
    exact absurd hr.symm (by simpa using hne)
  | some m =>
    rw [hpos] at hn hr
    simp only [Option.getD_some] at hn hr
    subst hn
    subst hr
    have hml : m < i.length := position_lt_length hpos
    unfold parse_option_name
    rw [position_append_left hpos w]
    simp only [Option.getD_some]
    rw [List.take_append_of_le_length (Nat.le_of_lt hml),
      List.drop_append_of_le_length (Nat.le_of_lt hml)]

theorem parse_option_name_length {i n rem : List Char}
    (h : parse_option_name i = .ok (n, rem)) : rem.length ≤ i.length := by
  obtain ⟨-, hr⟩ := parse_option_name_shape h
  subst hr
  simp

theorem fuq_cons (c : Char) (cs : List Char) (esc : Bool) :
    find_unescaped_quote (c :: cs) esc =
      (if c == '"' && !esc then some 0
       else (find_unescaped_quote cs (!esc && c == '\\')).map (· + 1)) := rfl

theorem fuq_append {l w : List Char} {esc : Bool} {j : Nat}
    (h : find_unescaped_quote l esc = some j) :
    find_unescaped_quote (l ++ w) esc = some j := by
  induction l generalizing esc j with
  | nil => simp [find_unescaped_quote] at h
  | cons c cs ih =>
    rw [fuq_cons] at h
    show find_unescaped_quote (c :: (cs ++ w)) esc = some j
    rw [fuq_cons]
    by_cases hc : (c == '"' && !esc) = true
    · rw [if_pos hc] at h ⊢
      exact h
    · rw [if_neg hc] at h ⊢
      rcases Option.map_eq_some'.mp h with ⟨j2, hj2, rfl⟩
      rw [ih hj2]
      rfl

theorem fuq_lt_length {l : List Char} {esc : Bool} {j : Nat}
    (h : find_unescaped_quote l esc = some j) : j < l.length := by
  induction l generalizing esc j with
  | nil => simp [find_unescaped_quote] at h
  | cons c cs ih =>
    rw [fuq_cons] at h
    by_cases hc : (c == '"' && !esc) = true
    · rw [if_pos hc] at h
      cases h
      simp
    · rw [if_neg hc] at h
      rcases Option.map_eq_some'.mp h with ⟨j2, hj2, rfl⟩
      have := ih hj2
      simp only [List.length_cons]
      omega

theorem parse_option_value_shape {i v r : List Char}
    (h : parse_option_value i = .ok (v, r)) :
    ∃ i1 ind, i = '"' :: i1 ∧ find_unescaped_quote i1 false = some ind ∧
      v = i1.take ind ∧ r = skip_char (i1.drop ind) := by
  unfold parse_option_value at h
  by_cases hq : i.head? ≠ some '"'
  · rw [if_pos hq] at h
    cases h
  · rw [if_neg hq] at h
    push_neg at hq
    rcases i with _ | ⟨c0, i1⟩
    · cases hq
    · have hc0 : c0 = '"' := by simpa using hq
      subst hc0
      rw [skip_char_cons] at h
      cases hf : find_unescaped_quote i1 false with
      | none =>
        rw [hf] at h
        cases h
      | some ind =>
        rw [hf] at h
        have h2 : (Except.ok (i1.take ind, skip_char (i1.drop ind)) :
            ParseResult (List Char)) = .ok (v, r) := h
        cases h2
        exact ⟨i1, ind, rfl, hf, rfl, rfl⟩

theorem parse_option_value_append {i v r : List Char} (w : List Char)
    (h : parse_option_value i = .ok (v, r)) :
    parse_option_value (i ++ w) = .ok (v, r ++ w) := by
  obtain ⟨i1, ind, rfl, hf, rfl, rfl⟩ := parse_option_value_shape h
  have hind := fuq_lt_length hf
  show parse_option_value ('"' :: (i1 ++ w)) = _
  unfold parse_option_value
  rw [if_neg (by simp)]
  rw [show skip_char ('"' :: (i1 ++ w)) = i1 ++ w from skip_char_cons _ _]
  rw [fuq_append hf]
  show (Except.ok ((i1 ++ w).take ind, skip_char ((i1 ++ w).drop ind)) :
    ParseResult (List Char)) = _
  rw [List.take_append_of_le_length (Nat.le_of_lt hind),
    List.drop_append_of_le_length (Nat.le_of_lt hind)]
  obtain ⟨c0, cs, hcs⟩ : ∃ c0 cs, i1.drop ind = c0 :: cs := by
    rcases hd : i1.drop ind with _ | ⟨c0, cs⟩
    · have : (i1.drop ind).length = 0 := by rw [hd]; rfl
      simp only [List.length_drop] at this
      omega
    · exact ⟨c0, cs, rfl⟩
  rw [hcs, show (c0 :: cs) ++ w = c0 :: (cs ++ w) from rfl,
    skip_char_cons, skip_char_cons]

theorem parse_option_value_length {i v r : List Char}
    (h : parse_option_value i = .ok (v, r)) : r.length + 2 ≤ i.length := by
  obtain ⟨i1, ind, rfl, hf, -, hr⟩ := parse_option_value_shape h
  have hind := fuq_lt_length hf
  obtain ⟨c0, cs, hcs⟩ : ∃ c0 cs, i1.drop ind = c0 :: cs := by
    rcases hd : i1.drop ind with _ | ⟨c0, cs⟩
    · have : (i1.drop ind).length = 0 := by rw [hd]; rfl
      simp only [List.length_drop] at this
      omega
    · exact ⟨c0, cs, rfl⟩
  rw [hcs, skip_char_cons] at hr
  subst hr
  have hlen : (i1.drop ind).length = i1.length - ind := by simp
  rw [hcs] at hlen
  simp only [List.length_cons] at hlen
  simp only [List.length_cons]
  omega

theorem parse_base64_append {u w tok rest : List Char}
    (h : parse_base64 u = .ok (tok, rest)) (hne : rest ≠ [])
    (hw : w.head? ≠ some '=') :
    parse_base64 (u ++ w) = .ok (tok, rest ++ w) := by
  obtain ⟨htok, hrest, hlen, hws⟩ := parse_base64_shape h
  cases hpos : position (fun c => !(c.isAlphanum || c == '/' || c == '+')) u with
  | none =>
    rw [base64StrEnd_of_none hpos, List.drop_length] at hrest
    exact absurd hrest hne
  | some p =>
    have hplen : p < u.length := position_lt_length hpos
    have h1 : u[p + 1]? ≠ some '=' := by
      intro hcontra
      by_cases h2 : u[p + 2]? = some '='
      · have hE : base64StrEnd u = p + 2 := by
          unfold base64StrEnd
          rw [hpos]
          show (if u[p + 1]? = some '=' then
              if u[p + 2]? = some '=' then p + 2 else p + 1
            else p) = p + 2
          rw [if_pos hcontra, if_pos h2]
        rw [hE] at hrest
        have hh : rest.head? = some '=' := by
          rw [hrest, List.head?_drop]
          exact h2
        exact absurd (hws '=' hh) (by decide)
      · have hE : base64StrEnd u = p + 1 := by
          unfold base64StrEnd
          rw [hpos]
          show (if u[p + 1]? = some '=' then
              if u[p + 2]? = some '=' then p + 2 else p + 1
            else p) = p + 1
          rw [if_pos hcontra, if_neg h2]
        rw [hE] at hrest
        have hh : rest.head? = some '=' := by
          rw [hrest, List.head?_drop]
          exact hcontra
        exact absurd (hws '=' hh) (by decide)
    have hE : base64StrEnd u = p := base64StrEnd_of_some hpos h1
    rw [hE] at htok hrest
    have h1' : (u ++ w)[p + 1]? ≠ some '=' := by
      rcases Nat.lt_or_ge (p + 1) u.length with hlt | hge
      · rw [List.getElem?_append_left hlt]
        exact h1
      · have hp1 : p + 1 - u.length = 0 := by omega
        rw [List.getElem?_append_right hge, hp1]
        rw [← List.head?_eq_getElem?]
        exact hw
    have hE2 : base64StrEnd (u ++ w) = p :=
      base64StrEnd_of_some (position_append_left hpos w) h1'
    unfold parse_base64
    rw [hE2, List.drop_append_of_le_length (Nat.le_of_lt hplen),
      List.take_append_of_le_length (Nat.le_of_lt hplen), ← htok, ← hrest]
    rcases rest with _ | ⟨r0, rtl⟩
    · exact absurd rfl hne
    · have hws0 : isAsciiWhitespace r0 = true := hws r0 rfl
      show (match ((r0 :: rtl) ++ w).head? with
        | some c =>
          if !(isAsciiWhitespace c) then
            (Except.error (.Unmatched (.trailingCharacter c)) :
              ParseResult (List Char))
          else
            if tok.length % 4 = 0 then .ok (tok, (r0 :: rtl) ++ w)
            else .error (.Unmatched .invalidBase64Length)
        | none =>
          if tok.length % 4 = 0 then .ok (tok, (r0 :: rtl) ++ w)
          else .error (.Unmatched .invalidBase64Length)) = _
      simp [hws0, hlen]

theorem parse_public_key_append {t w : List Char} {pk : PublicKey}
    {r2 : List Char} (h : parse_public_key t = .ok (pk, r2))
    {c : Char} (hc : c ∈ r2) (hcw : isAsciiWhitespace c = false)
    (hw : w.head? ≠ some '=') :
    parse_public_key (t ++ w) = .ok (pk, r2 ++ w) := by
  obtain ⟨rem, hkt, hb64⟩ := parse_public_key_shape h
  have hkt2 : parse_key_type (t ++ w) = .ok (pk.key_type, rem ++ w) :=
    parse_key_type_append hkt
  have hcu : c ∈ skip_whitespace rem := by
    obtain ⟨-, hr2, -, -⟩ := parse_base64_shape hb64
    rw [hr2] at hc
    exact List.mem_of_mem_drop hc
  have hskip : skip_whitespace (rem ++ w) = skip_whitespace rem ++ w :=
    skip_whitespace_append (mem_of_mem_skip_whitespace hcu) hcw
  have hr2ne : r2 ≠ [] := List.ne_nil_of_mem hc
  have hb64' : parse_base64 (skip_whitespace rem ++ w) =
      .ok (pk.encoded_key, r2 ++ w) := parse_base64_append hb64 hr2ne hw
  unfold parse_public_key
  rw [hkt2]
  show (match parse_encoded_key (skip_whitespace (rem ++ w)) with
    | Except.error e => (Except.error e : ParseResult PublicKey)
    | Except.ok (encoded_key, remainder2) =>
      .ok (⟨pk.key_type, encoded_key⟩, remainder2)) = .ok (pk, r2 ++ w)
  rw [hskip]
  unfold parse_encoded_key
  rw [hb64']

/-- Appending text to a successfully parsed option list with a non-empty
leftover does not change the options, provided both fuels cover their
inputs. -/
theorem parse_options_go_append :
    ∀ (fuel₁ : Nat) {fuel₂ : Nat} {acc o : KeyOptions} {t w r : List Char},
      t.length < fuel₁ → (t ++ w).length < fuel₂ →
      parse_options_go fuel₁ acc t = .ok (o, r) → r ≠ [] →
      parse_options_go fuel₂ acc (t ++ w) = .ok (o, r ++ w) := by
  intro fuel₁
  induction fuel₁ with
  | zero =>
    intro fuel₂ acc o t w r h1
    exact absurd h1 (by omega)
  | succ f ih =>
    intro fuel₂ acc o t w r h1 h2 h hne
    cases fuel₂ with
    | zero => exact absurd h2 (by omega)
    | succ f2 =>
      rw [parse_options_go_succ_eq] at h
      rcases t with _ | ⟨t0, ttl⟩
      · have h5 : (Except.ok (acc, ([] : List Char)) :
            ParseResult KeyOptions) = .ok (o, r) := h
        cases h5
        exact absurd rfl hne
      · rw [if_neg (by simp)] at h
        cases hname : parse_option_name (t0 :: ttl) with
        | error e =>
          unfold parse_option_name at hname
          cases hname
        | ok p =>
          rcases p with ⟨name, rem1⟩
          rw [hname] at h
          have h3 : (if rem1.head? = some '=' then
              match parse_option_value (rem1.drop 1) with
              | .error e => .error e
              | .ok (value, rem2) =>
                if rem2.head? = some ',' then
                  parse_options_go f (acc ++ [(name, some value)]) (skip_char rem2)
                else .ok (acc ++ [(name, some value)], rem2)
            else
              if rem1.head? = some ',' then
                parse_options_go f (acc ++ [(name, none)]) (skip_char rem1)
              else (.ok (acc ++ [(name, none)], rem1) :
                ParseResult KeyOptions)) = .ok (o, r) := h
          clear h
          have hr1len : rem1.length ≤ (t0 :: ttl).length :=
            parse_option_name_length hname
          rw [parse_options_go_succ_eq, if_neg (by simp)]
          by_cases heq : rem1.head? = some '='
          · rw [if_pos heq] at h3
            rcases rem1 with _ | ⟨r1h, r1t⟩
            · exact absurd heq (by simp)
            · have hr1h : r1h = '=' := by simpa using heq
              subst hr1h
              simp only [List.drop_succ_cons, List.drop_zero] at h3
              rw [parse_option_name_append hname (by simp)]
              show (if (('=' :: r1t) ++ w).head? = some '=' then
                  match parse_option_value ((('=' :: r1t) ++ w).drop 1) with
                  | .error e => .error e
                  | .ok (value, rem2) =>
                    if rem2.head? = some ',' then
                      parse_options_go f2 (acc ++ [(name, some value)])
                        (skip_char rem2)
                    else .ok (acc ++ [(name, some value)], rem2)
                else
                  if (('=' :: r1t) ++ w).head? = some ',' then
                    parse_options_go f2 (acc ++ [(name, none)])
                      (skip_char (('=' :: r1t) ++ w))
                  else (.ok (acc ++ [(name, none)], ('=' :: r1t) ++ w) :
                    ParseResult KeyOptions)) = .ok (o, r ++ w)
              rw [show ('=' :: r1t) ++ w = '=' :: (r1t ++ w) from rfl,
                if_pos (show ('=' :: (r1t ++ w)).head? = some '=' from rfl)]
              simp only [List.drop_succ_cons, List.drop_zero]
              cases hval : parse_option_value r1t with
              | error e =>
                rw [hval] at h3
                have h4 : (Except.error e : ParseResult KeyOptions) =
                    .ok (o, r) := h3
                cases h4
              | ok q =>
                rcases q with ⟨value, rem2⟩
                rw [hval] at h3
                have h4 : (if rem2.head? = some ',' then
                    parse_options_go f (acc ++ [(name, some value)])
                      (skip_char rem2)
                  else (.ok (acc ++ [(name, some value)], rem2) :
                    ParseResult KeyOptions)) = .ok (o, r) := h3
                clear h3
                have hvlen := parse_option_value_length hval
                rw [parse_option_value_append w hval]
                by_cases hcomma : rem2.head? = some ','
                · rw [if_pos hcomma] at h4
                  rcases rem2 with _ | ⟨r2h, r2t⟩
                  · exact absurd hcomma (by simp)
                  · have hr2h : r2h = ',' := by simpa using hcomma
                    subst hr2h
                    rw [skip_char_cons] at h4
                    show (if ((',' :: r2t) ++ w).head? = some ',' then
                        parse_options_go f2 (acc ++ [(name, some value)])
                          (skip_char ((',' :: r2t) ++ w))
                      else (.ok (acc ++ [(name, some value)],
                        (',' :: r2t) ++ w) : ParseResult KeyOptions)) =
                      .ok (o, r ++ w)
                    rw [show (',' :: r2t) ++ w = ',' :: (r2t ++ w) from rfl,
                      if_pos (show (',' :: (r2t ++ w)).head? = some ','
                        from rfl),
                      skip_char_cons]
                    have l1 : r2t.length + 3 ≤ r1t.length := by
                      simpa using hvlen
                    have l2 : r1t.length + 1 ≤ ttl.length + 1 := by
                      simpa using hr1len
                    have l3 : ttl.length + 1 < f + 1 := by simpa using h1
                    have l4 : ttl.length + 1 + w.length < f2 + 1 := by
                      simp only [List.length_append, List.length_cons] at h2
                      omega
                    refine ih (by omega) ?_ h4 hne
                    simp only [List.length_append]
                    omega
                · rw [if_neg hcomma] at h4
                  have h5 : (Except.ok (acc ++ [(name, some value)], rem2) :
                      ParseResult KeyOptions) = .ok (o, r) := h4
                  rcases rem2 with _ | ⟨r2h, r2t⟩
                  · cases h5
                    exact absurd rfl hne
                  · cases h5
                    show (if ((r2h :: r2t) ++ w).head? = some ',' then
                        parse_options_go f2 (acc ++ [(name, some value)])
                          (skip_char ((r2h :: r2t) ++ w))
                      else (.ok (acc ++ [(name, some value)],
                        (r2h :: r2t) ++ w) : ParseResult KeyOptions)) = _
                    rw [show (r2h :: r2t) ++ w = r2h :: (r2t ++ w) from rfl,
                      if_neg (by simpa using hcomma)]
          · rw [if_neg heq] at h3
            by_cases hcomma : rem1.head? = some ','
            · rw [if_pos hcomma] at h3
              rcases rem1 with _ | ⟨r1h, r1t⟩
              · exact absurd hcomma (by simp)
              · have hr1h : r1h = ',' := by simpa using hcomma
                subst hr1h
                rw [skip_char_cons] at h3
                rw [parse_option_name_append hname (by simp)]
                show (if ((',' :: r1t) ++ w).head? = some '=' then
                    match parse_option_value (((',' :: r1t) ++ w).drop 1) with
                    | .error e => .error e
                    | .ok (value, rem2) =>
                      if rem2.head? = some ',' then
                        parse_options_go f2 (acc ++ [(name, some value)])
                          (skip_char rem2)
                      else .ok (acc ++ [(name, some value)], rem2)
                  else
                    if ((',' :: r1t) ++ w).head? = some ',' then
                      parse_options_go f2 (acc ++ [(name, none)])
                        (skip_char ((',' :: r1t) ++ w))
                    else (.ok (acc ++ [(name, none)], (',' :: r1t) ++ w) :
                      ParseResult KeyOptions)) = .ok (o, r ++ w)
                rw [show (',' :: r1t) ++ w = ',' :: (r1t ++ w) from rfl,
                  if_neg (by simp : ¬((',' :: (r1t ++ w)).head? = some '=')),
                  if_pos (show (',' :: (r1t ++ w)).head? = some ',' from rfl),
                  skip_char_cons]
                have l2 : r1t.length + 1 ≤ ttl.length + 1 := by
                  simpa using hr1len
                have l3 : ttl.length + 1 < f + 1 := by simpa using h1
                have l4 : ttl.length + 1 + w.length < f2 + 1 := by
                  simp only [List.length_append, List.length_cons] at h2
                  omega
                refine ih (by omega) ?_ h3 hne
                simp only [List.length_append]
                omega
            · rw [if_neg hcomma] at h3
              have h5 : (Except.ok (acc ++ [(name, none)], rem1) :
                  ParseResult KeyOptions) = .ok (o, r) := h3
              rcases rem1 with _ | ⟨r1h, r1t⟩
              · cases h5
                exact absurd rfl hne
              · cases h5
                rw [parse_option_name_append hname (by simp)]
                show (if ((r1h :: r1t) ++ w).head? = some '=' then
                    match parse_option_value (((r1h :: r1t) ++ w).drop 1) with
                    | .error e => .error e
                    | .ok (value, rem2) =>
                      if rem2.head? = some ',' then
                        parse_options_go f2 (acc ++ [(name, some value)])
                          (skip_char rem2)
                      else .ok (acc ++ [(name, some value)], rem2)
                  else
                    if ((r1h :: r1t) ++ w).head? = some ',' then
                      parse_options_go f2 (acc ++ [(name, none)])
                        (skip_char ((r1h :: r1t) ++ w))
                    else (.ok (acc ++ [(name, none)], (r1h :: r1t) ++ w) :
                      ParseResult KeyOptions)) = _
                rw [show (r1h :: r1t) ++ w = r1h :: (r1t ++ w) from rfl,
                  if_neg (by simpa using heq), if_neg (by simpa using hcomma)]

/-- `parse_options` is stable under appending when its leftover is
non-empty. -/
theorem parse_options_append {t w : List Char} {o : KeyOptions}
    {r : List Char} (h : parse_options t = .ok (o, r)) (hne : r ≠ []) :
    parse_options (t ++ w) = .ok (o, r ++ w) := by
  unfold parse_options at h ⊢
  exact parse_options_go_append (t.length + 1) (by omega) (by omega) h hne

theorem base64StrEnd_append {u w : List Char} {p : Nat}
    (hpos : position (fun c => !(c.isAlphanum || c == '/' || c == '+')) u =
      some p) (hw : w.head? ≠ some '=') :
    base64StrEnd (u ++ w) = base64StrEnd u := by
  have hplen : p < u.length := position_lt_length hpos
  unfold base64StrEnd
  rw [hpos, position_append_left hpos]
  show (if (u ++ w)[p + 1]? = some '=' then
      if (u ++ w)[p + 2]? = some '=' then p + 2 else p + 1
    else p) =
    (if u[p + 1]? = some '=' then
      if u[p + 2]? = some '=' then p + 2 else p + 1
    else p)
  by_cases h1 : u[p + 1]? = some '='
  · have h1lt : p + 1 < u.length := by
      by_contra hcon
      push_neg at hcon
      rw [List.getElem?_eq_none hcon] at h1
      exact Option.noConfusion h1
    rw [List.getElem?_append_left h1lt, if_pos h1, if_pos h1]
    by_cases h2 : u[p + 2]? = some '='
    · have h2lt : p + 2 < u.length := by
        by_contra hcon
        push_neg at hcon
        rw [List.getElem?_eq_none hcon] at h2
        exact Option.noConfusion h2
      rw [List.getElem?_append_left h2lt, if_pos h2]
    · rcases Nat.lt_or_ge (p + 2) u.length with hlt | hge
      · rw [List.getElem?_append_left hlt, if_neg h2]
      · have hp2 : p + 2 - u.length = 0 := by omega
        rw [List.getElem?_append_right hge, hp2, ← List.head?_eq_getElem?,
          if_neg hw, if_neg h2]
  · rcases Nat.lt_or_ge (p + 1) u.length with hlt | hge
    · rw [List.getElem?_append_left hlt, if_neg h1, if_neg h1]
    · have hp1 : p + 1 - u.length = 0 := by omega
      rw [List.getElem?_append_right hge, hp1, ← List.head?_eq_getElem?,
        if_neg hw, if_neg h1]

theorem base64StrEnd_lt {u : List Char} {p : Nat}
    (hpos : position (fun c => !(c.isAlphanum || c == '/' || c == '+')) u =
      some p) : base64StrEnd u < u.length := by
  have hplen : p < u.length := position_lt_length hpos
  unfold base64StrEnd
  rw [hpos]
  show (if u[p + 1]? = some '=' then
      if u[p + 2]? = some '=' then p + 2 else p + 1
    else p) < u.length
  by_cases h1 : u[p + 1]? = some '='
  · have h1lt : p + 1 < u.length := by
      by_contra hcon
      push_neg at hcon
      rw [List.getElem?_eq_none hcon] at h1
      exact Option.noConfusion h1
    rw [if_pos h1]
    by_cases h2 : u[p + 2]? = some '='
    · rw [if_pos h2]
      by_contra hcon
      push_neg at hcon
      rw [List.getElem?_eq_none hcon] at h2
      exact Option.noConfusion h2
    · rw [if_neg h2]
      exact h1lt
  · rw [if_neg h1]
    exact hplen

theorem parse_base64_eval {input : List Char} {E : Nat} {c : Char}
    (hE : base64StrEnd input = E) (hh : input[E]? = some c) :
    parse_base64 input =
      (if (!isAsciiWhitespace c) = true then
        .error (.Unmatched (.trailingCharacter c))
      else if (input.take E).length % 4 = 0 then .ok (input.take E, input.drop E)
      else .error (.Unmatched .invalidBase64Length)) := by
  unfold parse_base64
  rw [hE, List.head?_drop, hh]

theorem parse_base64_eval_none {input : List Char} {E : Nat}
    (hE : base64StrEnd input = E) (hh : input[E]? = none) :
    parse_base64 input =
      (if (input.take E).length % 4 = 0 then .ok (input.take E, input.drop E)
       else .error (.Unmatched .invalidBase64Length)) := by
  unfold parse_base64
  rw [hE, List.head?_drop, hh]

/-- A failed base64 parse stays failed (though possibly with a different
error) after a line feed and arbitrary text are appended. -/
theorem parse_base64_err_append {u s : List Char} {e : ParseError}
    (h : parse_base64 u = .error e) :
    ∃ e2, parse_base64 (u ++ '\n' :: s) = .error e2 := by
  cases hpos : position (fun c => !(c.isAlphanum || c == '/' || c == '+')) u with
  | some p =>
    have hElt : base64StrEnd u < u.length := base64StrEnd_lt hpos
    have hE' : base64StrEnd (u ++ '\n' :: s) = base64StrEnd u :=
      base64StrEnd_append hpos (by simp)
    obtain ⟨c, hc⟩ : ∃ c, u[base64StrEnd u]? = some c :=
      ⟨_, List.getElem?_eq_getElem hElt⟩
    have hc' : (u ++ '\n' :: s)[base64StrEnd u]? = some c := by
      rw [List.getElem?_append_left hElt]
      exact hc
    have htake : (u ++ '\n' :: s).take (base64StrEnd u) =
        u.take (base64StrEnd u) :=
      List.take_append_of_le_length (Nat.le_of_lt hElt)
    rw [parse_base64_eval rfl hc] at h
    by_cases hws : isAsciiWhitespace c = true
    · rw [hws] at h
      simp only [Bool.not_true, Bool.false_eq_true, if_false] at h
      by_cases hlen : (u.take (base64StrEnd u)).length % 4 = 0
      · rw [if_pos hlen] at h
        cases h
      · refine ⟨.Unmatched .invalidBase64Length, ?_⟩
        rw [parse_base64_eval hE' hc', htake, hws]
        simp only [Bool.not_true, Bool.false_eq_true, if_false]
        rw [if_neg hlen]
    · have hws' : isAsciiWhitespace c = false := by simpa using hws
      refine ⟨.Unmatched (.trailingCharacter c), ?_⟩
      rw [parse_base64_eval hE' hc', hws']
      simp
  | none =>
    have hall := position_eq_none_iff.mp hpos
    rw [parse_base64_eval_none (base64StrEnd_of_none hpos)
      (List.getElem?_eq_none (Nat.le_refl _)), List.take_length] at h
    by_cases hlen : u.length % 4 = 0
    · rw [if_pos hlen] at h
      cases h
    · have hpos' : position (fun c => !(c.isAlphanum || c == '/' || c == '+'))
          (u ++ '\n' :: s) = some u.length :=
        position_append_of_forall hall (by decide) s
      have hget1 : (u ++ '\n' :: s)[u.length + 1]? = s[0]? := by
        rw [List.getElem?_append_right (by omega),
          show u.length + 1 - u.length = 1 by omega]
        simp
      have hget2 : (u ++ '\n' :: s)[u.length + 2]? = s[1]? := by
        rw [List.getElem?_append_right (by omega),
          show u.length + 2 - u.length = 2 by omega]
        simp
      by_cases hs0 : s[0]? = some '='
      · by_cases hs1 : s[1]? = some '='
        · have hE' : base64StrEnd (u ++ '\n' :: s) = u.length + 2 := by
            unfold base64StrEnd
            rw [hpos']
            show (if (u ++ '\n' :: s)[u.length + 1]? = some '=' then
                if (u ++ '\n' :: s)[u.length + 2]? = some '=' then u.length + 2
                else u.length + 1
              else u.length) = u.length + 2
            rw [hget1, hget2, if_pos hs0, if_pos hs1]
          refine ⟨.Unmatched (.trailingCharacter '='), ?_⟩
          rw [parse_base64_eval hE' (hget2.trans hs1)]
          rw [if_pos (by decide)]
        · have hE' : base64StrEnd (u ++ '\n' :: s) = u.length + 1 := by
            unfold base64StrEnd
            rw [hpos']
            show (if (u ++ '\n' :: s)[u.length + 1]? = some '=' then
                if (u ++ '\n' :: s)[u.length + 2]? = some '=' then u.length + 2
                else u.length + 1
              else u.length) = u.length + 1
            rw [hget1, hget2, if_pos hs0, if_neg hs1]
          refine ⟨.Unmatched (.trailingCharacter '='), ?_⟩
          rw [parse_base64_eval hE' (hget1.trans hs0)]
          rw [if_pos (by decide)]
      · have hE' : base64StrEnd (u ++ '\n' :: s) = u.length :=
          base64StrEnd_of_some hpos' (by rw [hget1]; exact hs0)
        have hgetn : (u ++ '\n' :: s)[u.length]? = some '\n' := by
          rw [List.getElem?_append_right (Nat.le_refl _), Nat.sub_self]
          simp
        refine ⟨.Unmatched .invalidBase64Length, ?_⟩
        rw [parse_base64_eval hE' hgetn, if_neg (by decide),
          List.take_append_of_le_length (Nat.le_refl _), List.take_length,
          if_neg hlen]

theorem newline_not_ktName (kt : KeyType) : toAsciiLower '\n' ∉ ktName kt := by
  cases kt <;> decide

theorem nonws_of_lower_mem_ktName {c : Char} {kt : KeyType}
    (h : toAsciiLower c ∈ ktName kt) : isAsciiWhitespace c = false := by
  cases hw : isAsciiWhitespace c with
  | false => rfl
  | true =>
    rcases ws_cases hw with rfl | rfl | rfl | rfl | rfl <;>
      exact absurd h (by cases kt <;> decide)

/-- A failed key-type parse stays failed after a line feed and arbitrary
text are appended: the token in front of the first space can only grow
past the line feed, and no key-type name contains one. -/
theorem parse_key_type_err_append {t s : List Char} {e : ParseError}
    (h : parse_key_type t = .error e) :
    ∃ e2, parse_key_type (t ++ '\n' :: s) = .error e2 := by
  cases hpos : position (fun c => c == ' ') t with
  | some j =>
    have hjl : j < t.length := position_lt_length hpos
    rw [parse_key_type_eval hpos] at h
    cases hfc : KeyType.fromChars (t.take j) with
    | some kt =>
      rw [hfc] at h
      have h4 : (Except.ok (kt, t.drop j) : ParseResult KeyType) =
          .error e := h
      cases h4
    | none =>
      refine ⟨.Unmatched (.unknownKeyType ((t ++ '\n' :: s).take j)), ?_⟩
      apply parse_key_type_err_of (position_append_left hpos ('\n' :: s))
      rw [List.take_append_of_le_length (Nat.le_of_lt hjl)]
      exact hfc
  | none =>
    have hall := position_eq_none_iff.mp hpos
    cases hpos' : position (fun c => c == ' ') (t ++ '\n' :: s) with
    | none =>
      refine ⟨.Incomplete, ?_⟩
      unfold parse_key_type
      rw [hpos']
    | some j =>
      have hjgt : t.length + 1 ≤ j := by
        by_contra hcon
        push_neg at hcon
        rcases position_get hpos' with ⟨d, hd, hpd⟩
        have hd' : d = ' ' := by simpa using hpd
        subst hd'
        rcases Nat.lt_or_ge j t.length with hlt | hge
        · rw [List.getElem?_append_left hlt] at hd
          have := hall ' ' (mem_of_getElem_some hd)
          simp at this
        · have hje : j = t.length := by omega
          subst hje
          rw [List.getElem?_append_right (Nat.le_refl _), Nat.sub_self] at hd
          simp at hd
      have hmem : '\n' ∈ (t ++ '\n' :: s).take j := by
        have hg : ((t ++ '\n' :: s).take j)[t.length]? =
            (t ++ '\n' :: s)[t.length]? :=
          List.getElem?_take_of_lt (by omega)
        have hg2 : (t ++ '\n' :: s)[t.length]? = some '\n' := by
          rw [List.getElem?_append_right (Nat.le_refl _), Nat.sub_self]
          simp
        exact mem_of_getElem_some (hg.trans hg2)
      cases hfc : KeyType.fromChars ((t ++ '\n' :: s).take j) with
      | some kt =>
        exact absurd (fromChars_eq_some_mem hfc hmem) (newline_not_ktName kt)
      | none =>
        exact ⟨_, parse_key_type_err_of hpos' hfc⟩

/-- A failed public-key parse stays failed after a line feed and arbitrary
text are appended. -/
theorem parse_public_key_err_append {t s : List Char} {e : ParseError}
    (h : parse_public_key t = .error e) :
    ∃ e2, parse_public_key (t ++ '\n' :: s) = .error e2 := by
  cases hkt : parse_key_type t with
  | error ek =>
    obtain ⟨e2, h2⟩ := @parse_key_type_err_append t s ek hkt
    exact ⟨e2, parse_public_key_eval_err h2⟩
  | ok p =>
    rcases p with ⟨kt, rem⟩
    rw [parse_public_key_eval_ok hkt] at h
    cases hb : parse_encoded_key (skip_whitespace rem) with
    | ok q =>
      rcases q with ⟨ek, r2⟩
      rw [hb] at h
      have h3 : (Except.ok (⟨kt, ek⟩, r2) : ParseResult PublicKey) =
          .error e := h
      cases h3
    | error eb =>
      have hrem : ∃ c ∈ rem, isAsciiWhitespace c = false := by
        by_contra hcon
        push_neg at hcon
        have hallws : ∀ c ∈ rem, isAsciiWhitespace c = true := by
          intro c hc
          cases hcw : isAsciiWhitespace c with
          | false => exact absurd hcw (hcon c hc)
          | true => rfl
        have hskipid : skip_whitespace rem = rem := by
          rw [skip_whitespace_eq_drop,
            position_eq_none_iff.mpr (fun c hc => by simp [hallws c hc])]
          rfl
        obtain ⟨j, hposj, -, hdrop⟩ := parse_key_type_shape hkt
        have hhead : rem.head? = some ' ' := by
          rcases position_get hposj with ⟨d, hd, hpd⟩
          have hd' : d = ' ' := by simpa using hpd
          subst hd'
          rw [hdrop, List.head?_drop]
          exact hd
        rcases rem with _ | ⟨r0, rtl⟩
        · simp at hhead
        · have hr0 : r0 = ' ' := by simpa using hhead
          subst hr0
          have hpos0 : position (fun c => !(c.isAlphanum || c == '/' || c == '+'))
              (' ' :: rtl) = some 0 := position_cons_true (by decide)
          have hnoeq : (' ' :: rtl)[0 + 1]? ≠ some '=' := by
            intro hcontra
            have hmem : '=' ∈ (' ' :: rtl) := mem_of_getElem_some hcontra
            exact absurd (hallws '=' hmem) (by decide)
          have hE0 : base64StrEnd (' ' :: rtl) = 0 :=
            base64StrEnd_of_some hpos0 hnoeq
          have hok : parse_base64 (' ' :: rtl) = .ok ([], ' ' :: rtl) := by
            rw [parse_base64_eval hE0
              (show (' ' :: rtl)[0]? = some ' ' by simp)]
            rfl
          rw [hskipid] at hb
          unfold parse_encoded_key at hb
          rw [hok] at hb
          cases hb
      obtain ⟨c, hcmem, hcw⟩ := hrem
      have hkt' : parse_key_type (t ++ '\n' :: s) =
          .ok (kt, rem ++ '\n' :: s) := parse_key_type_append hkt
      have hskip : skip_whitespace (rem ++ '\n' :: s) =
          skip_whitespace rem ++ '\n' :: s :=
        skip_whitespace_append hcmem hcw
      have hb' : parse_base64 (skip_whitespace rem) = .error eb := by
        unfold parse_encoded_key at hb
        exact hb
      obtain ⟨e2, hb2⟩ := @parse_base64_err_append (skip_whitespace rem) s eb hb'
      refine ⟨e2, ?_⟩
      rw [parse_public_key_eval_ok hkt', hskip]
      unfold parse_encoded_key
      rw [hb2]

theorem head?_take {l : List Char} {n : Nat} {c : Char}
    (h : (l.take n).head? = some c) : l.head? = some c := by
  cases n with
  | zero => simp at h
  | succ n =>
    cases l with
    | nil => simp at h
    | cons a as =>
      simp only [List.take_succ_cons, List.head?_cons] at h ⊢
      exact h

/-- If the captured comment is non-empty and starts with a character that
is not whitespace, the comment's input contains that character. -/
theorem exists_nonws_of_comments {x : List Char} {c0 : Char}
    (hhead : ((parse_comments x).1).head? = some c0)
    (hc0 : isAsciiWhitespace c0 = false) :
    ∃ c ∈ x, isAsciiWhitespace c = false := by
  obtain ⟨n, hn⟩ : ∃ n, (parse_comments x).1 = x.take n := ⟨_, rfl⟩
  rw [hn] at hhead
  have hx : x.head? = some c0 := head?_take hhead
  rcases x with _ | ⟨a, as⟩
  · simp at hx
  · have ha : a = c0 := by simpa using hx
    subst ha
    exact ⟨a, List.mem_cons_self a as, hc0⟩

/-- C10 counterexample: `"ssh-rsa AAAA"` parses successfully (with an empty
comment), but appending a line feed and the single character `'='` makes
the parse fail: the padding probe of `parse_base64` reaches across the
line feed, absorbs the `'='`, and leaves a trailing-character error, after
which the option fallback also finds no key. Success is NOT stable under
appending further lines. -/
theorem spec_C10_counterexample :
    KeyAuthorization.parse "ssh-rsa AAAA".toList =
      .ok ⟨[], ⟨.SshRsa, "AAAA".toList⟩, []⟩ ∧
    KeyAuthorization.parse ("ssh-rsa AAAA".toList ++ '\n' :: "=".toList) =
      .error .CouldNotFindKeyAfterOptions :=
  ⟨rfl, rfl⟩

/-- C10 amended: if a line parses successfully AND its captured comment is
non-empty with a non-whitespace first character (which excludes the
padding-probe and whitespace-bug edge cases), then appending a line feed
and arbitrary text still parses successfully with the same options and the
same public key (the comment may change). -/
theorem spec_C10_amended (t s : List Char) (r : KeyAuthorization)
    (h : KeyAuthorization.parse t = .ok r)
    (hcne : r.comments ≠ [])
    (hchead : r.comments.head?.all (fun c0 => !(isAsciiWhitespace c0)) = true) :
    (KeyAuthorization.parse (t ++ '\n' :: s)).map
      (fun r2 => (r2.options, r2.key)) = .ok (r.options, r.key) := by
  obtain ⟨c0, hc0head⟩ : ∃ c0, r.comments.head? = some c0 := by
    rcases hcm : r.comments with _ | ⟨a, as⟩
    · exact absurd hcm hcne
    · exact ⟨a, by simp [hcm]⟩
  have hc0ws : isAsciiWhitespace c0 = false := by
    rw [hc0head] at hchead
    simpa using hchead
  unfold KeyAuthorization.parse at h
  cases hpk : parse_public_key t with
  | ok p =>
    rcases p with ⟨pk, rem⟩
    rw [hpk] at h
    have h3 : (Except.ok
        (⟨[], pk, (parse_comments (skip_whitespace rem)).1⟩ :
          KeyAuthorization) : Except LineError KeyAuthorization) = .ok r := h
    clear h
    cases h3
    obtain ⟨c, hcmem, hcw⟩ :=
      @exists_nonws_of_comments (skip_whitespace rem) c0 hc0head hc0ws
    have hcrem : c ∈ rem := mem_of_mem_skip_whitespace hcmem
    have hpk2 : parse_public_key (t ++ '\n' :: s) =
        .ok (pk, rem ++ '\n' :: s) :=
      parse_public_key_append hpk hcrem hcw (by simp)
    unfold KeyAuthorization.parse
    rw [hpk2]
    rfl
  | error ep =>
    rw [hpk] at h
    cases hopt : parse_options t with
    | error eo =>
      rw [hopt] at h
      have h4 : (Except.error LineError.CouldNotFindOptionsOrKey :
          Except LineError KeyAuthorization) = .ok r := h
      cases h4
    | ok p2 =>
      rcases p2 with ⟨opts, rem⟩
      rw [hopt] at h
      have h5 : (match parse_public_key (skip_whitespace rem) with
        | Except.ok (public_key, remainder2) =>
          (Except.ok ⟨opts, public_key,
            (parse_comments (skip_whitespace remainder2)).1⟩ :
            Except LineError KeyAuthorization)
        | Except.error _ => .error .CouldNotFindKeyAfterOptions) = .ok r := h
      clear h
      cases hpk2 : parse_public_key (skip_whitespace rem) with
      | error e2 =>
        rw [hpk2] at h5
        have h4 : (Except.error LineError.CouldNotFindKeyAfterOptions :
            Except LineError KeyAuthorization) = .ok r := h5
        cases h4
      | ok q =>
        rcases q with ⟨pk, rem2⟩
        rw [hpk2] at h5
        have h3 : (Except.ok
            (⟨opts, pk, (parse_comments (skip_whitespace rem2)).1⟩ :
              KeyAuthorization) : Except LineError KeyAuthorization) =
            .ok r := h5
        clear h5
        cases h3
        obtain ⟨c, hcmem, hcw⟩ :=
          @exists_nonws_of_comments (skip_whitespace rem2) c0 hc0head hc0ws
        have hcrem2 : c ∈ rem2 := mem_of_mem_skip_whitespace hcmem
        have hremne : rem ≠ [] := by
          intro hnil
          subst hnil
          rw [skip_whitespace_nil] at hpk2
          have hempty : parse_public_key ([] : List Char) =
              .error .Incomplete := by
            apply parse_public_key_eval_err
            unfold parse_key_type
            rw [show position (fun c => c == ' ') ([] : List Char) = none
              from rfl]
          rw [hempty] at hpk2
          cases hpk2
        have hopt2 : parse_options (t ++ '\n' :: s) =
            .ok (opts, rem ++ '\n' :: s) := parse_options_append hopt hremne
        have hskip2 : skip_whitespace (rem ++ '\n' :: s) =
            skip_whitespace rem ++ '\n' :: s := by
          obtain ⟨rem3, hkt3, -⟩ := parse_public_key_shape hpk2
          obtain ⟨j, hposj, hfcj, -⟩ := parse_key_type_shape hkt3
          have hjpos : 0 < j := by
            rcases Nat.eq_zero_or_pos j with rfl | hj
            · rw [show (skip_whitespace rem).take 0 = [] from rfl] at hfcj
              rw [show KeyType.fromChars ([] : List Char) = none from rfl]
                at hfcj
              exact Option.noConfusion hfcj
            · exact hj
          have hlen0 : 0 < (skip_whitespace rem).length := by
            have := position_lt_length hposj
            omega
          obtain ⟨c1, hc1⟩ : ∃ c1, (skip_whitespace rem)[0]? = some c1 :=
            ⟨_, List.getElem?_eq_getElem hlen0⟩
          have hc1tok : c1 ∈ (skip_whitespace rem).take j :=
            mem_of_getElem_some ((List.getElem?_take_of_lt hjpos).trans hc1)
          have hc1ws : isAsciiWhitespace c1 = false :=
            nonws_of_lower_mem_ktName (fromChars_eq_some_mem hfcj hc1tok)
          have hc1mem : c1 ∈ rem :=
            mem_of_mem_skip_whitespace (mem_of_getElem_some hc1)
          exact skip_whitespace_append hc1mem hc1ws
        have hpk3 : parse_public_key (skip_whitespace rem ++ '\n' :: s) =
            .ok (pk, rem2 ++ '\n' :: s) :=
          parse_public_key_append hpk2 hcrem2 hcw (by simp)
        obtain ⟨e3, hpk4⟩ := @parse_public_key_err_append t s ep hpk
        have hparse : KeyAuthorization.parse (t ++ '\n' :: s) =
            .ok ⟨opts, pk,
              (parse_comments (skip_whitespace (rem2 ++ '\n' :: s))).1⟩ := by
          unfold KeyAuthorization.parse
          rw [hpk4]
          show (match parse_options (t ++ '\n' :: s) with
            | .ok (options, remainder) =>
              match parse_public_key (skip_whitespace remainder) with
              | .ok (public_key, remainder2) =>
                (Except.ok ⟨options, public_key,
                  (parse_comments (skip_whitespace remainder2)).1⟩ :
                  Except LineError KeyAuthorization)
              | .error _ => .error .CouldNotFindKeyAfterOptions
            | .error _ => .error .CouldNotFindOptionsOrKey) = _
          rw [hopt2]
          show (match parse_public_key (skip_whitespace (rem ++ '\n' :: s)) with
            | .ok (public_key, remainder2) =>
              (Except.ok ⟨opts, public_key,
                (parse_comments (skip_whitespace remainder2)).1⟩ :
                Except LineError KeyAuthorization)
            | .error _ => .error .CouldNotFindKeyAfterOptions) = _
          rw [hskip2, hpk3]
        rw [hparse]
        rfl

/-- C10 witness: `"ssh-rsa AAAA x"` parses with comment `"x"`; appending a
line feed and `"yz"` still yields the same (empty) options and the same
public key. -/
theorem spec_C10_witness :
    (KeyAuthorization.parse ("ssh-rsa AAAA x".toList ++ '\n' :: "yz".toList)).map
      (fun r2 => (r2.options, r2.key)) =
      .ok (([] : KeyOptions), (⟨.SshRsa, "AAAA".toList⟩ : PublicKey)) :=
  spec_C10_amended "ssh-rsa AAAA x".toList "yz".toList
    ⟨[], ⟨.SshRsa, "AAAA".toList⟩, "x".toList⟩ rfl (by decide) (by decide)
